import Mathlib

/-!
# Verification of the s2fft spherical-transform core

A shallow embedding, in Lean 4, of the parts of the `s2fft` repository that
the checked specification claims talk about:

* `s2harmonic/wigner/trapani.py` — the Trapani & Navaza π/2 Wigner-d plane
  recursion (`compute_eighth`, the three fill steps, `compute_full`,
  `_arg_checks`);
* `s2fft/transform.py` — the on-the-fly forward/inverse spherical harmonic
  transform (`_forward`, `_inverse`, the vectorized methods);
* `s2fft/precompute_transforms/spherical.py` — the precompute transform
  wrappers and the numpy `forward_transform`;
* `s2fft/general_precompute/construct.py` — `wigner_kernel`;
* `s2fft/wigner/price_mcewen.py` — `generate_precomputes` and
  `compute_all_slices`;
* `s2fft/jax_transforms/wigner.py` — `inverse_numpy`.

Floating-point arrays are modelled as functions into an abstract field `K`
(instantiated with `ℚ` or `ℝ` in concrete statements); the transcendental
routines the code takes from numpy (`sqrt`, `exp`, `log`, trigonometry, `pi`)
are collected in a `NumOps` record so that every definition stays computable
and the algebraic structure of the source is preserved exactly.  Stateful
numpy code (in-place array writes) is embedded by explicit state passing:
loops become fuelled recursions whose per-iteration bodies are literal
transcriptions of the loop bodies, and functions that mutate their arguments
return the final state of those arguments alongside their result.  Code of
the repository that is referenced but absent from the source tree (the
`samples`, `quadrature`, `resampling`, `healpix_ffts`, `turok` and
`spin_spherical` modules, and the external FFT library) is taken as a
parameter, or modelled from the specification where a definition is needed.
-/

/-- The transcendental operations the numpy code uses, abstracted so the
embedding is parametric in the numeric model.  Instantiated with the real
functions (`Real.sqrt`, …) for concrete real-valued statements. -/
structure NumOps (K : Type) where
  sqrt : K → K
  exp : K → K
  log : K → K
  sin : K → K
  cos : K → K
  tan : K → K
  pi : K

/-- Python's `str.lower()` on scheme identifiers. -/
def pyLower (s : String) : String := String.mk (s.data.map Char.toLower)

section SignFacts

variable {K : Type} [Field K]

lemma neg_one_zpow_ne_zero : (-1 : K) ≠ 0 := by norm_num

lemma neg_one_zpow_add (a b : ℤ) : (-1 : K) ^ (a + b) = (-1 : K) ^ a * (-1 : K) ^ b :=
  zpow_add₀ neg_one_zpow_ne_zero a b

lemma neg_one_zpow_mul_self (n : ℤ) : (-1 : K) ^ n * (-1 : K) ^ n = 1 := by
  rw [← mul_zpow]
  norm_num

lemma neg_one_zpow_congr {a b : ℤ} (h : a % 2 = b % 2) :
    (-1 : K) ^ a = (-1 : K) ^ b := by
  rcases Int.even_or_odd a with ha | ha
  · have hb : Even b := by
      rw [Int.even_iff] at ha ⊢
      omega
    rw [ha.neg_one_zpow, hb.neg_one_zpow]
  · have hb : Odd b := by
      rw [Int.odd_iff] at ha ⊢
      omega
    rw [ha.neg_one_zpow, hb.neg_one_zpow]

lemma neg_one_zpow_merge (e1 e2 : ℤ) (X : K) :
    (-1 : K) ^ e1 * ((-1 : K) ^ e2 * X) = (-1 : K) ^ (e1 + e2) * X := by
  rw [← mul_assoc, ← neg_one_zpow_add]

lemma neg_one_zpow_triple_cancel (e1 e2 e3 : ℤ) (h : (e1 + e2 + e3) % 2 = 0) (X : K) :
    (-1 : K) ^ e1 * ((-1 : K) ^ e2 * ((-1 : K) ^ e3 * X)) = X := by
  rw [neg_one_zpow_merge, neg_one_zpow_merge]
  have he : Even (e1 + e2 + e3) := by rw [Int.even_iff]; omega
  rw [he.neg_one_zpow, one_mul]

end SignFacts

namespace trapani

/-! ## `s2harmonic/wigner/trapani.py`

The Wigner-d plane `dl` is a `(2L-1) × (2L-1)` numpy array indexed by
`dl[m + L - 1, mm + L - 1]`.  We model it as a carrier of its two dimensions
together with an entry function indexed directly by the mathematical indices
`(m, mm)`; the constant `L - 1` offset of the python indexing is folded into
the index translation.  All reads and writes performed by the trapani
functions stay inside the index range `-(L-1) ≤ m, mm ≤ L-1` whenever the
`_arg_checks` preconditions hold, so the translation is exact. -/

/-- A numpy 2-d float array: its shape and its entries (math-indexed). -/
structure Plane (K : Type) where
  rows : ℕ
  cols : ℕ
  ent : ℤ → ℤ → K

variable {K : Type} [Field K]

/-- In-place write `dl[m + L - 1, mm + L - 1] = v` (math-indexed). -/
def pset (d : Plane K) (m mm : ℤ) (v : K) : Plane K :=
  { d with ent := fun a b => if a = m ∧ b = mm then v else d.ent a b }

/-- `_arg_checks(dl, L, el)`: asserts `0 <= el < L` and that `dl` is
`(2L-1) × (2L-1)`; warns (without failing) when `L > 1024`.  The assertions
are modelled as `Except.error`, the warning as a returned message list. -/
def _arg_checks (dl : Plane K) (L el : ℤ) : Except String (List String) :=
  if ¬ (0 ≤ el ∧ el < L) then .error "assert 0 <= el < L failed"
  else if ¬ ((dl.rows : ℤ) = 2 * L - 1 ∧ (dl.cols : ℤ) = 2 * L - 1) then
    .error "assert dl.shape[0] == dl.shape[1] == 2 * L - 1 failed"
  else .ok (if L > 1024 then ["Trapani recursion may not be stable for L > 1024"] else [])

/-- Equations (9) and (10) of T&N (2006): the buffer `dmm`, computed from the
degree `el - 1` plane before any write to `dl` happens. -/
def dmmF (ops : NumOps K) (dl : Plane K) (el : ℤ) (mm : ℤ) : K :=
  if mm = 0 then
    -(ops.sqrt (((2 * el - 1 : ℤ) : K) / ((2 * el : ℤ) : K))) * dl.ent (el - 1) 0
  else
    ops.sqrt ((el : ℤ) : K) / ops.sqrt 2 * ops.sqrt (((2 * el - 1 : ℤ) : K))
      / ops.sqrt (((el + mm : ℤ) : K)) / ops.sqrt (((el + mm - 1 : ℤ) : K))
      * dl.ent (el - 1) (mm - 1)

/-- "Initialise dl for next el": `dl[el, mm] = dmm[mm]` for `mm = 0..el`.
The loop writes pairwise-distinct cells and reads only the pre-existing
plane (through `dmm`), so it is a simultaneous update. -/
def eighthInit (ops : NumOps K) (dl : Plane K) (el : ℤ) : Plane K :=
  { dl with
    ent := fun a b =>
      if a = el ∧ 0 ≤ b ∧ b ≤ el then dmmF ops dl el b else dl.ent a b }

/-- The `m = el - 1` case of equation (11) (`t2 = 0`) for column `mm`. -/
def eighthColTop (ops : NumOps K) (el mm : ℤ) (d : Plane K) : Plane K :=
  pset d (el - 1) mm
    (2 * ((mm : ℤ) : K) / ops.sqrt (((el - (el - 1) : ℤ) : K))
      / ops.sqrt (((el + (el - 1) + 1 : ℤ) : K)) * d.ent (el - 1 + 1) mm)

/-- The remaining `m` cases of equation (11) for column `mm`: the descending
loop `for m in range(el - 2, mm - 1, -1)`; iteration `j` handles
`m = el - 2 - j`, reading the rows `m + 1` and `m + 2` written just before. -/
def eighthColLoop (ops : NumOps K) (el mm : ℤ) : ℕ → Plane K → Plane K
  | 0, d => d
  | j + 1, d =>
    let d' := eighthColLoop ops el mm j d
    let m : ℤ := el - 2 - j
    let t1 := 2 * ((mm : ℤ) : K) / ops.sqrt (((el - m : ℤ) : K))
      / ops.sqrt (((el + m + 1 : ℤ) : K)) * d'.ent (m + 1) mm
    let t2 := ops.sqrt (((el - m - 1 : ℤ) : K)) * ops.sqrt (((el + m + 2 : ℤ) : K))
      / ops.sqrt (((el - m : ℤ) : K)) / ops.sqrt (((el + m + 1 : ℤ) : K))
      * d'.ent (m + 2) mm
    pset d' m mm (t1 - t2)

/-- Equation (11) for one column `mm`: the `m = el - 1` case followed by the
descending loop, which runs `el - 1 - mm` times. -/
def eighthCol (ops : NumOps K) (el mm : ℤ) (d : Plane K) : Plane K :=
  eighthColLoop ops el mm (el - 1 - mm).toNat (eighthColTop ops el mm d)

/-- The outer `for mm in range(el + 1)` loop of equation (11). -/
def eighthCols (ops : NumOps K) (el : ℤ) : ℕ → Plane K → Plane K
  | 0, d => d
  | j + 1, d => eighthCol ops el (j : ℤ) (eighthCols ops el j d)

/-- Body of `compute_eighth` (after `_arg_checks`): seed `dl[0, 0] = 1` for
`el = 0`; otherwise equations (9)–(11) of T&N (2006).  `L` only enters the
python code through the `L - 1` index offset, which the math-indexed plane
absorbs. -/
def compute_eighthCore (ops : NumOps K) (dl : Plane K) (L el : ℤ) : Plane K :=
  if el = 0 then pset dl 0 0 1
  else eighthCols ops el (el + 1).toNat (eighthInit ops dl el)

/-- `compute_eighth(dl, L, el)`. -/
def compute_eighth (ops : NumOps K) (dl : Plane K) (L el : ℤ) :
    Except String (List String × Plane K) := do
  let w ← _arg_checks dl L el
  .ok (w, compute_eighthCore ops dl L el)

/-- Inner loop of `fill_eighth2quarter` at row `m`:
`for mm in range(m + 1, el + 1)`; iteration `j` handles `mm = m + 1 + j`. -/
def quarterInner (el m : ℤ) : ℕ → Plane K → Plane K
  | 0, d => d
  | j + 1, d =>
    let d' := quarterInner el m j d
    let mm : ℤ := m + 1 + j
    pset d' m mm (((-1 : K) ^ (m + mm)) * d'.ent mm m)

/-- Outer loop of `fill_eighth2quarter`: `for m in range(el + 1)`. -/
def quarterOuter (el : ℤ) : ℕ → Plane K → Plane K
  | 0, d => d
  | i + 1, d => quarterInner el (i : ℤ) (el - i).toNat (quarterOuter el i d)

/-- Body of `fill_eighth2quarter` (after `_arg_checks`): diagonal symmetry,
`dl[m, mm] = (-1)^(m+mm) * dl[mm, m]` for `0 ≤ m < mm ≤ el`. -/
def fill_eighth2quarterCore (el : ℤ) (dl : Plane K) : Plane K :=
  quarterOuter el (el + 1).toNat dl

/-- `fill_eighth2quarter(dl, L, el)`. -/
def fill_eighth2quarter (dl : Plane K) (L el : ℤ) :
    Except String (List String × Plane K) := do
  let w ← _arg_checks dl L el
  .ok (w, fill_eighth2quarterCore el dl)

/-- Inner loop of `fill_quarter2half` at column `mm`:
`for m in range(-el, 0)`; iteration `j` handles `m = -el + j`. -/
def halfInner (el mm : ℤ) : ℕ → Plane K → Plane K
  | 0, d => d
  | j + 1, d =>
    let d' := halfInner el mm j d
    let m : ℤ := -el + j
    pset d' m mm (((-1 : K) ^ (el + mm)) * d'.ent (-m) mm)

/-- Outer loop of `fill_quarter2half`: `for mm in range(0, el + 1)`. -/
def halfOuter (el : ℤ) : ℕ → Plane K → Plane K
  | 0, d => d
  | i + 1, d => halfInner el (i : ℤ) el.toNat (halfOuter el i d)

/-- Body of `fill_quarter2half` (after `_arg_checks`): symmetry in `m`,
`dl[m, mm] = (-1)^(el+mm) * dl[-m, mm]` for `-el ≤ m ≤ -1`, `0 ≤ mm ≤ el`. -/
def fill_quarter2halfCore (el : ℤ) (dl : Plane K) : Plane K :=
  halfOuter el (el + 1).toNat dl

/-- `fill_quarter2half(dl, L, el)`. -/
def fill_quarter2half (dl : Plane K) (L el : ℤ) :
    Except String (List String × Plane K) := do
  let w ← _arg_checks dl L el
  .ok (w, fill_quarter2halfCore el dl)

/-- Inner loop of `fill_half2full` at column `mm`:
`for m in range(-el, el + 1)`; iteration `j` handles `m = -el + j`. -/
def fullInner (el mm : ℤ) : ℕ → Plane K → Plane K
  | 0, d => d
  | j + 1, d =>
    let d' := fullInner el mm j d
    let m : ℤ := -el + j
    pset d' m mm (((-1 : K) ^ (el + |m|)) * d'.ent m (-mm))

/-- Outer loop of `fill_half2full`: `for mm in range(-el, 0)`; iteration `i`
handles `mm = -el + i`. -/
def fullOuter (el : ℤ) : ℕ → Plane K → Plane K
  | 0, d => d
  | i + 1, d => fullInner el (-el + i) (2 * el + 1).toNat (fullOuter el i d)

/-- Body of `fill_half2full` (after `_arg_checks`): symmetry in `mm`,
`dl[m, mm] = (-1)^(el+|m|) * dl[m, -mm]` for `-el ≤ mm ≤ -1`, `-el ≤ m ≤ el`. -/
def fill_half2fullCore (el : ℤ) (dl : Plane K) : Plane K :=
  fullOuter el el.toNat dl

/-- `fill_half2full(dl, L, el)`. -/
def fill_half2full (dl : Plane K) (L el : ℤ) :
    Except String (List String × Plane K) := do
  let w ← _arg_checks dl L el
  .ok (w, fill_half2fullCore el dl)

/-- The value the equation-(11) recursion assigns to cell `(el - k, mm)` of
column `mm`, as a function of the fuel `k = el - m`; anchored at the original
input plane `dl` through `dmmF` (equations (9)/(10)). -/
def colVal (ops : NumOps K) (dl : Plane K) (el mm : ℤ) : ℕ → K
  | 0 => dmmF ops dl el mm
  | 1 => 2 * ((mm : ℤ) : K) / ops.sqrt (((el - (el - 1) : ℤ) : K))
      / ops.sqrt (((el + (el - 1) + 1 : ℤ) : K)) * colVal ops dl el mm 0
  | j + 2 =>
    2 * ((mm : ℤ) : K) / ops.sqrt (((el - (el - 2 - j) : ℤ) : K))
        / ops.sqrt (((el + (el - 2 - j) + 1 : ℤ) : K)) * colVal ops dl el mm (j + 1)
      - ops.sqrt (((el - (el - 2 - j) - 1 : ℤ) : K)) * ops.sqrt (((el + (el - 2 - j) + 2 : ℤ) : K))
        / ops.sqrt (((el - (el - 2 - j) : ℤ) : K)) / ops.sqrt (((el + (el - 2 - j) + 1 : ℤ) : K))
        * colVal ops dl el mm j

/-- Body of `compute_full` (after its own `_arg_checks`): the eighth
recursion followed by the three symmetry fills. -/
def compute_fullCore (ops : NumOps K) (dl : Plane K) (L el : ℤ) : Plane K :=
  fill_half2fullCore el (fill_quarter2halfCore el
    (fill_eighth2quarterCore el (compute_eighthCore ops dl L el)))

/-- `compute_full(dl, L, el)`: checks arguments itself and then delegates to
`compute_eighth` and the three fills, each of which re-checks. -/
def compute_full (ops : NumOps K) (dl : Plane K) (L el : ℤ) :
    Except String (List String × Plane K) := do
  let w0 ← _arg_checks dl L el
  let (w1, d1) ← compute_eighth ops dl L el
  let (w2, d2) ← fill_eighth2quarter d1 L el
  let (w3, d3) ← fill_quarter2half d2 L el
  let (w4, d4) ← fill_half2full d3 L el
  .ok (w0 ++ w1 ++ w2 ++ w3 ++ w4, d4)

/-! ### Characterisation of the fill loops

Each fill loop writes pairwise-distinct cells and reads only cells that no
iteration of the same fill writes, so its net effect is a pointwise
re-indexing.  The lemmas below make that explicit, by induction on the fuel
of the transcription. -/

lemma pset_ent (d : Plane K) (m mm : ℤ) (v : K) (a b : ℤ) :
    (pset d m mm v).ent a b = if a = m ∧ b = mm then v else d.ent a b := rfl

lemma quarterInner_ent (el m : ℤ) (j : ℕ) (d : Plane K) (a b : ℤ) :
    (quarterInner el m j d).ent a b =
      if a = m ∧ m + 1 ≤ b ∧ b < m + 1 + j then (-1 : K) ^ (a + b) * d.ent b a
      else d.ent a b := by
  induction j generalizing a b with
  | zero =>
    simp only [quarterInner]
    rw [if_neg (by push_cast; omega)]
  | succ j ih =>
    simp only [quarterInner, pset_ent]
    by_cases hab : a = m ∧ b = m + 1 + (j : ℤ)
    · rw [if_pos hab]
      have hread : (quarterInner el m j d).ent (m + 1 + (j : ℤ)) m
          = d.ent (m + 1 + (j : ℤ)) m := by
        rw [ih, if_neg (by omega)]
      rw [hread, if_pos (by push_cast; omega : a = m ∧ m + 1 ≤ b ∧ b < m + 1 + ((j + 1 : ℕ) : ℤ))]
      obtain ⟨ha, hb⟩ := hab
      subst ha
      subst hb
      rfl
    · rw [if_neg hab, ih]
      have hiff : (a = m ∧ m + 1 ≤ b ∧ b < m + 1 + (j : ℤ)) ↔
          (a = m ∧ m + 1 ≤ b ∧ b < m + 1 + ((j + 1 : ℕ) : ℤ)) := by
        push_cast
        omega
      rw [if_congr hiff rfl rfl]

lemma quarterOuter_ent (el : ℤ) (i : ℕ) (hi : (i : ℤ) ≤ el + 1) (d : Plane K) (a b : ℤ) :
    (quarterOuter el i d).ent a b =
      if 0 ≤ a ∧ a < i ∧ a < b ∧ b ≤ el then (-1 : K) ^ (a + b) * d.ent b a
      else d.ent a b := by
  induction i generalizing a b with
  | zero =>
    simp only [quarterOuter]
    have : ¬ (0 ≤ a ∧ a < (0 : ℕ) ∧ a < b ∧ b ≤ el) := by
      push_cast
      omega
    rw [if_neg this]
  | succ i ih =>
    have hi' : (i : ℤ) ≤ el + 1 := by push_cast at hi ⊢; omega
    have hie : (i : ℤ) ≤ el := by push_cast at hi; omega
    simp only [quarterOuter]
    rw [quarterInner_ent]
    have hfc : ((el - (i : ℤ)).toNat : ℤ) = el - (i : ℤ) := Int.toNat_of_nonneg (by omega)
    by_cases hw : a = (i : ℤ) ∧ (i : ℤ) + 1 ≤ b ∧ b < (i : ℤ) + 1 + ((el - (i : ℤ)).toNat : ℤ)
    · rw [if_pos hw]
      obtain ⟨ha, hb1, hb2⟩ := hw
      rw [hfc] at hb2
      have hread : (quarterOuter el i d).ent b a = d.ent b a := by
        rw [ih hi']
        have : ¬ (0 ≤ b ∧ b < (i : ℤ) ∧ b < a ∧ a ≤ el) := by omega
        rw [if_neg this]
      rw [hread]
      have : 0 ≤ a ∧ a < ((i + 1 : ℕ) : ℤ) ∧ a < b ∧ b ≤ el := by push_cast; omega
      rw [if_pos this]
    · rw [if_neg hw, ih hi']
      rw [hfc] at hw
      have : (0 ≤ a ∧ a < (i : ℤ) ∧ a < b ∧ b ≤ el) ↔
          (0 ≤ a ∧ a < ((i + 1 : ℕ) : ℤ) ∧ a < b ∧ b ≤ el) := by
        push_cast
        omega
      rw [if_congr this rfl rfl]

lemma halfInner_ent (el mm : ℤ) (hel : 0 ≤ el) (j : ℕ) (hj : (j : ℤ) ≤ el)
    (d : Plane K) (a b : ℤ) :
    (halfInner el mm j d).ent a b =
      if -el ≤ a ∧ a < -el + j ∧ b = mm then (-1 : K) ^ (el + mm) * d.ent (-a) mm
      else d.ent a b := by
  induction j generalizing a b with
  | zero =>
    simp only [halfInner]
    rw [if_neg (by push_cast; omega)]
  | succ j ih =>
    have hj' : (j : ℤ) ≤ el := by push_cast at hj ⊢; omega
    simp only [halfInner, pset_ent]
    by_cases hab : a = -el + (j : ℤ) ∧ b = mm
    · rw [if_pos hab]
      have hread : (halfInner el mm j d).ent (-(-el + (j : ℤ))) mm
          = d.ent (-(-el + (j : ℤ))) mm := by
        rw [ih hj', if_neg (by omega)]
      rw [hread, if_pos (by push_cast; omega :
        -el ≤ a ∧ a < -el + ((j + 1 : ℕ) : ℤ) ∧ b = mm)]
      obtain ⟨ha, hb⟩ := hab
      subst ha
      subst hb
      rfl
    · rw [if_neg hab, ih hj']
      have hiff : (-el ≤ a ∧ a < -el + (j : ℤ) ∧ b = mm) ↔
          (-el ≤ a ∧ a < -el + ((j + 1 : ℕ) : ℤ) ∧ b = mm) := by
        push_cast
        omega
      rw [if_congr hiff rfl rfl]

lemma halfOuter_ent (el : ℤ) (hel : 0 ≤ el) (i : ℕ) (hi : (i : ℤ) ≤ el + 1)
    (d : Plane K) (a b : ℤ) :
    (halfOuter el i d).ent a b =
      if -el ≤ a ∧ a < 0 ∧ 0 ≤ b ∧ b < i then (-1 : K) ^ (el + b) * d.ent (-a) b
      else d.ent a b := by
  induction i generalizing a b with
  | zero =>
    simp only [halfOuter]
    rw [if_neg (by push_cast; omega)]
  | succ i ih =>
    have hi' : (i : ℤ) ≤ el + 1 := by push_cast at hi ⊢; omega
    simp only [halfOuter]
    rw [halfInner_ent el _ hel el.toNat (by omega) _ a b]
    have hfc : ((el.toNat : ℤ)) = el := Int.toNat_of_nonneg hel
    by_cases hw : -el ≤ a ∧ a < -el + (el.toNat : ℤ) ∧ b = (i : ℤ)
    · rw [if_pos hw]
      obtain ⟨ha1, ha2, hb⟩ := hw
      rw [hfc] at ha2
      have hread : (halfOuter el i d).ent (-a) (i : ℤ) = d.ent (-a) (i : ℤ) := by
        rw [ih hi', if_neg (by omega)]
      rw [hread]
      rw [if_pos (by push_cast; omega : -el ≤ a ∧ a < 0 ∧ 0 ≤ b ∧ b < ((i + 1 : ℕ) : ℤ))]
      rw [hb]
    · rw [if_neg hw, ih hi']
      rw [hfc] at hw
      have hiff : (-el ≤ a ∧ a < 0 ∧ 0 ≤ b ∧ b < (i : ℤ)) ↔
          (-el ≤ a ∧ a < 0 ∧ 0 ≤ b ∧ b < ((i + 1 : ℕ) : ℤ)) := by
        push_cast
        omega
      rw [if_congr hiff rfl rfl]

/-- Net effect of `fill_quarter2half`: for `-el ≤ m ≤ -1`, `0 ≤ mm ≤ el` the
cell `(m, mm)` becomes `(-1)^(el+mm) * dl[-m, mm]` — the sign depends on the
degree and the *second* index; every other cell is untouched. -/
lemma fill_quarter2halfCore_ent (el : ℤ) (hel : 0 ≤ el) (dl : Plane K) (a b : ℤ) :
    (fill_quarter2halfCore el dl).ent a b =
      if -el ≤ a ∧ a < 0 ∧ 0 ≤ b ∧ b ≤ el then (-1 : K) ^ (el + b) * dl.ent (-a) b
      else dl.ent a b := by
  unfold fill_quarter2halfCore
  have hc : (((el + 1).toNat : ℤ)) = el + 1 := Int.toNat_of_nonneg (by omega)
  rw [halfOuter_ent el hel _ (by rw [hc]) dl a b]
  have hiff : (-el ≤ a ∧ a < 0 ∧ 0 ≤ b ∧ b < ((el + 1).toNat : ℤ)) ↔
      (-el ≤ a ∧ a < 0 ∧ 0 ≤ b ∧ b ≤ el) := by
    rw [hc]
    omega
  rw [if_congr hiff rfl rfl]

lemma fullInner_ent (el mm : ℤ) (hmm : mm < 0) (j : ℕ) (d : Plane K) (a b : ℤ) :
    (fullInner el mm j d).ent a b =
      if -el ≤ a ∧ a < -el + j ∧ b = mm then (-1 : K) ^ (el + |a|) * d.ent a (-mm)
      else d.ent a b := by
  induction j generalizing a b with
  | zero =>
    simp only [fullInner]
    rw [if_neg (by push_cast; omega)]
  | succ j ih =>
    simp only [fullInner, pset_ent]
    by_cases hab : a = -el + (j : ℤ) ∧ b = mm
    · rw [if_pos hab]
      have hread : (fullInner el mm j d).ent (-el + (j : ℤ)) (-mm)
          = d.ent (-el + (j : ℤ)) (-mm) := by
        rw [ih, if_neg (by omega)]
      rw [hread, if_pos (by push_cast; omega :
        -el ≤ a ∧ a < -el + ((j + 1 : ℕ) : ℤ) ∧ b = mm)]
      obtain ⟨ha, hb⟩ := hab
      subst ha
      subst hb
      rfl
    · rw [if_neg hab, ih]
      have hiff : (-el ≤ a ∧ a < -el + (j : ℤ) ∧ b = mm) ↔
          (-el ≤ a ∧ a < -el + ((j + 1 : ℕ) : ℤ) ∧ b = mm) := by
        push_cast
        omega
      rw [if_congr hiff rfl rfl]

lemma fullOuter_ent (el : ℤ) (hel : 0 ≤ el) (i : ℕ) (hi : (i : ℤ) ≤ el)
    (d : Plane K) (a b : ℤ) :
    (fullOuter el i d).ent a b =
      if -el ≤ a ∧ a ≤ el ∧ -el ≤ b ∧ b < -el + i then (-1 : K) ^ (el + |a|) * d.ent a (-b)
      else d.ent a b := by
  induction i generalizing a b with
  | zero =>
    simp only [fullOuter]
    rw [if_neg (by push_cast; omega)]
  | succ i ih =>
    have hi' : (i : ℤ) ≤ el := by push_cast at hi ⊢; omega
    simp only [fullOuter]
    rw [fullInner_ent el _ (by omega) _ _ a b]
    have hfc : (((2 * el + 1).toNat : ℤ)) = 2 * el + 1 := Int.toNat_of_nonneg (by omega)
    by_cases hw : -el ≤ a ∧ a < -el + ((2 * el + 1).toNat : ℤ) ∧ b = -el + (i : ℤ)
    · rw [if_pos hw]
      obtain ⟨ha1, ha2, hb⟩ := hw
      rw [hfc] at ha2
      have hread : (fullOuter el i d).ent a (-(-el + (i : ℤ)))
          = d.ent a (-(-el + (i : ℤ))) := by
        rw [ih hi', if_neg (by omega)]
      rw [hread]
      rw [if_pos (by push_cast; omega :
        -el ≤ a ∧ a ≤ el ∧ -el ≤ b ∧ b < -el + ((i + 1 : ℕ) : ℤ))]
      rw [hb]
    · rw [if_neg hw, ih hi']
      rw [hfc] at hw
      have hiff : (-el ≤ a ∧ a ≤ el ∧ -el ≤ b ∧ b < -el + (i : ℤ)) ↔
          (-el ≤ a ∧ a ≤ el ∧ -el ≤ b ∧ b < -el + ((i + 1 : ℕ) : ℤ)) := by
        push_cast
        omega
      rw [if_congr hiff rfl rfl]

/-- Net effect of `fill_half2full`: for `-el ≤ mm ≤ -1`, `-el ≤ m ≤ el` the
cell `(m, mm)` becomes `(-1)^(el+|m|) * dl[m, -mm]`; every other cell is
untouched. -/
lemma fill_half2fullCore_ent (el : ℤ) (hel : 0 ≤ el) (dl : Plane K) (a b : ℤ) :
    (fill_half2fullCore el dl).ent a b =
      if -el ≤ a ∧ a ≤ el ∧ -el ≤ b ∧ b < 0 then (-1 : K) ^ (el + |a|) * dl.ent a (-b)
      else dl.ent a b := by
  unfold fill_half2fullCore
  have hc : ((el.toNat : ℤ)) = el := Int.toNat_of_nonneg hel
  rw [fullOuter_ent el hel _ (by rw [hc]) dl a b]
  have hiff : (-el ≤ a ∧ a ≤ el ∧ -el ≤ b ∧ b < -el + (el.toNat : ℤ)) ↔
      (-el ≤ a ∧ a ≤ el ∧ -el ≤ b ∧ b < 0) := by
    rw [hc]
    omega
  rw [if_congr hiff rfl rfl]

/-- Net effect of `fill_eighth2quarter`: for `0 ≤ m < mm ≤ el` the cell
`(m, mm)` becomes `(-1)^(m+mm) * dl[mm, m]`; every other cell is untouched. -/
lemma fill_eighth2quarterCore_ent (el : ℤ) (hel : 0 ≤ el) (dl : Plane K) (a b : ℤ) :
    (fill_eighth2quarterCore el dl).ent a b =
      if 0 ≤ a ∧ a < b ∧ b ≤ el then (-1 : K) ^ (a + b) * dl.ent b a
      else dl.ent a b := by
  unfold fill_eighth2quarterCore
  have hc : (((el + 1).toNat : ℤ)) = el + 1 := Int.toNat_of_nonneg (by omega)
  rw [quarterOuter_ent el _ (by rw [hc]) dl a b]
  have : (0 ≤ a ∧ a < ((el + 1).toNat : ℤ) ∧ a < b ∧ b ≤ el) ↔
      (0 ≤ a ∧ a < b ∧ b ≤ el) := by
    rw [hc]
    omega
  rw [if_congr this rfl rfl]

/-! ### Characterisation of the eighth recursion

Equation (11)'s descending loop reads only rows of the same column written
just before it, so each column is a linear two-step recursion whose values
are `colVal`. -/

lemma eighthInit_ent (ops : NumOps K) (dl : Plane K) (el : ℤ) (a b : ℤ) :
    (eighthInit ops dl el).ent a b =
      if a = el ∧ 0 ≤ b ∧ b ≤ el then dmmF ops dl el b else dl.ent a b := rfl

lemma eighthColLoop_ent (ops : NumOps K) (dl : Plane K) (el mm : ℤ) (d : Plane K)
    (h0 : d.ent el mm = colVal ops dl el mm 0)
    (h1 : d.ent (el - 1) mm = colVal ops dl el mm 1)
    (j : ℕ) (a b : ℤ) :
    (eighthColLoop ops el mm j d).ent a b =
      if el - 2 - (j : ℤ) < a ∧ a ≤ el - 2 ∧ b = mm then colVal ops dl el mm ((el - a).toNat)
      else d.ent a b := by
  induction j generalizing a b with
  | zero =>
    simp only [eighthColLoop]
    rw [if_neg (by push_cast; omega)]
  | succ j ih =>
    simp only [eighthColLoop, pset_ent]
    have hr1 : (eighthColLoop ops el mm j d).ent (el - 2 - (j : ℤ) + 1) mm
        = colVal ops dl el mm (j + 1) := by
      rw [ih]
      rcases Nat.eq_zero_or_pos j with hj0 | hjp
      · subst hj0
        rw [if_neg (by push_cast; omega)]
        have he : el - 2 - ((0 : ℕ) : ℤ) + 1 = el - 1 := by push_cast; omega
        rw [he, h1]
      · rw [if_pos (by push_cast; omega)]
        congr 1
        omega
    have hr2 : (eighthColLoop ops el mm j d).ent (el - 2 - (j : ℤ) + 2) mm
        = colVal ops dl el mm j := by
      rw [ih]
      rcases Nat.lt_or_ge j 2 with hj2 | hj2
      · interval_cases j
        · rw [if_neg (by push_cast; omega)]
          have he : el - 2 - ((0 : ℕ) : ℤ) + 2 = el := by push_cast; omega
          rw [he, h0]
        · rw [if_neg (by push_cast; omega)]
          have he : el - 2 - ((1 : ℕ) : ℤ) + 2 = el - 1 := by push_cast; omega
          rw [he, h1]
      · rw [if_pos (by push_cast; omega)]
        congr 1
        omega
    by_cases hab : a = el - 2 - (j : ℤ) ∧ b = mm
    · rw [if_pos hab]
      obtain ⟨ha, hb⟩ := hab
      rw [hr1, hr2]
      rw [if_pos (by push_cast; omega :
        el - 2 - ((j + 1 : ℕ) : ℤ) < a ∧ a ≤ el - 2 ∧ b = mm)]
      have hk : (el - a).toNat = j + 2 := by omega
      rw [hk]
      show 2 * ((mm : ℤ) : K) / ops.sqrt (((el - (el - 2 - (j : ℤ)) : ℤ) : K))
          / ops.sqrt (((el + (el - 2 - (j : ℤ)) + 1 : ℤ) : K)) * colVal ops dl el mm (j + 1)
        - ops.sqrt (((el - (el - 2 - (j : ℤ)) - 1 : ℤ) : K))
          * ops.sqrt (((el + (el - 2 - (j : ℤ)) + 2 : ℤ) : K))
          / ops.sqrt (((el - (el - 2 - (j : ℤ)) : ℤ) : K))
          / ops.sqrt (((el + (el - 2 - (j : ℤ)) + 1 : ℤ) : K)) * colVal ops dl el mm j
        = colVal ops dl el mm (j + 2)
      rw [show colVal ops dl el mm (j + 2) =
        2 * ((mm : ℤ) : K) / ops.sqrt (((el - (el - 2 - (j : ℤ)) : ℤ) : K))
            / ops.sqrt (((el + (el - 2 - (j : ℤ)) + 1 : ℤ) : K)) * colVal ops dl el mm (j + 1)
          - ops.sqrt (((el - (el - 2 - (j : ℤ)) - 1 : ℤ) : K))
            * ops.sqrt (((el + (el - 2 - (j : ℤ)) + 2 : ℤ) : K))
            / ops.sqrt (((el - (el - 2 - (j : ℤ)) : ℤ) : K))
            / ops.sqrt (((el + (el - 2 - (j : ℤ)) + 1 : ℤ) : K)) * colVal ops dl el mm j
        from rfl]
    · rw [if_neg hab, ih]
      have hiff : (el - 2 - (j : ℤ) < a ∧ a ≤ el - 2 ∧ b = mm) ↔
          (el - 2 - ((j + 1 : ℕ) : ℤ) < a ∧ a ≤ el - 2 ∧ b = mm) := by
        push_cast
        omega
      rw [if_congr hiff rfl rfl]

lemma eighthCol_ent (ops : NumOps K) (dl : Plane K) (el mm : ℤ) (d : Plane K)
    (h0 : d.ent el mm = colVal ops dl el mm 0) (a b : ℤ) :
    (eighthCol ops el mm d).ent a b =
      if min mm (el - 1) ≤ a ∧ a ≤ el - 1 ∧ b = mm then colVal ops dl el mm ((el - a).toNat)
      else d.ent a b := by
  unfold eighthCol
  have htop0 : (eighthColTop ops el mm d).ent el mm = colVal ops dl el mm 0 := by
    rw [eighthColTop, pset_ent, if_neg (by omega), h0]
  have htop1 : (eighthColTop ops el mm d).ent (el - 1) mm = colVal ops dl el mm 1 := by
    rw [eighthColTop, pset_ent, if_pos ⟨rfl, rfl⟩]
    have he : el - 1 + 1 = el := by omega
    rw [he, h0]
    rfl
  rw [eighthColLoop_ent ops dl el mm _ htop0 htop1]
  by_cases hloop : el - 2 - ((el - 1 - mm).toNat : ℤ) < a ∧ a ≤ el - 2 ∧ b = mm
  · rw [if_pos hloop]
    rw [if_pos (by rcases le_or_lt mm (el - 1) with h | h <;>
      [skip; skip] <;> constructor <;> omega)]
  · rw [if_neg hloop]
    rw [eighthColTop, pset_ent]
    by_cases htc : a = el - 1 ∧ b = mm
    · rw [if_pos htc]
      obtain ⟨ha, hb⟩ := htc
      rw [if_pos (by omega : min mm (el - 1) ≤ a ∧ a ≤ el - 1 ∧ b = mm)]
      have hk : (el - a).toNat = 1 := by omega
      rw [hk]
      have he : el - 1 + 1 = el := by omega
      rw [he, h0]
      rfl
    · rw [if_neg htc]
      rw [if_neg (by omega)]

lemma eighthCols_ent (ops : NumOps K) (dl : Plane K) (el : ℤ) (hel : 1 ≤ el)
    (i : ℕ) (hi : (i : ℤ) ≤ el + 1) (a b : ℤ) :
    (eighthCols ops el i (eighthInit ops dl el)).ent a b =
      if 0 ≤ b ∧ b < i ∧ min b (el - 1) ≤ a ∧ a ≤ el - 1 then
        colVal ops dl el b ((el - a).toNat)
      else (eighthInit ops dl el).ent a b := by
  induction i generalizing a b with
  | zero =>
    simp only [eighthCols]
    rw [if_neg (by push_cast; omega)]
  | succ i ih =>
    have hi' : (i : ℤ) ≤ el + 1 := by push_cast at hi ⊢; omega
    have hie : (i : ℤ) ≤ el := by push_cast at hi; omega
    simp only [eighthCols]
    have h0 : (eighthCols ops el i (eighthInit ops dl el)).ent el (i : ℤ)
        = colVal ops dl el (i : ℤ) 0 := by
      rw [ih hi', if_neg (by omega), eighthInit_ent,
        if_pos (by omega : el = el ∧ 0 ≤ (i : ℤ) ∧ (i : ℤ) ≤ el)]
      rfl
    rw [eighthCol_ent ops dl el (i : ℤ) _ h0]
    by_cases hw : min (i : ℤ) (el - 1) ≤ a ∧ a ≤ el - 1 ∧ b = (i : ℤ)
    · rw [if_pos hw]
      obtain ⟨hw1, hw2, hw3⟩ := hw
      rw [if_pos (by push_cast; omega :
        0 ≤ b ∧ b < ((i + 1 : ℕ) : ℤ) ∧ min b (el - 1) ≤ a ∧ a ≤ el - 1)]
      rw [hw3]
    · rw [if_neg hw, ih hi']
      have hiff : (0 ≤ b ∧ b < (i : ℤ) ∧ min b (el - 1) ≤ a ∧ a ≤ el - 1) ↔
          (0 ≤ b ∧ b < ((i + 1 : ℕ) : ℤ) ∧ min b (el - 1) ≤ a ∧ a ≤ el - 1) := by
        push_cast
        constructor
        · rintro ⟨u1, u2, u3, u4⟩
          exact ⟨u1, by omega, u3, u4⟩
        · rintro ⟨u1, u2, u3, u4⟩
          refine ⟨u1, ?_, u3, u4⟩
          rcases lt_or_ge b (i : ℤ) with h | h
          · exact h
          · exfalso
            exact hw ⟨by omega, u4, by omega⟩
      rw [if_congr hiff rfl rfl]

/-- On the eighth region `0 ≤ mm ≤ m ≤ el` (together with the extra
`m = el` row written by the initialisation), `compute_eighth` computes the
column recursion values `colVal`. -/
lemma compute_eighthCore_ent (ops : NumOps K) (dl : Plane K) (L el : ℤ)
    (hel : 1 ≤ el) (a b : ℤ) (hb : 0 ≤ b) (hba : b ≤ a) (ha : a ≤ el) :
    (compute_eighthCore ops dl L el).ent a b = colVal ops dl el b ((el - a).toNat) := by
  unfold compute_eighthCore
  rw [if_neg (by omega)]
  rw [eighthCols_ent ops dl el hel _ (by rw [Int.toNat_of_nonneg (by omega : (0:ℤ) ≤ el + 1)])]
  rcases eq_or_lt_of_le ha with hae | halt
  · rw [if_neg (by omega), eighthInit_ent, if_pos (by omega : a = el ∧ 0 ≤ b ∧ b ≤ el)]
    have hk : (el - a).toNat = 0 := by omega
    rw [hk]
    rfl
  · rw [if_pos (by rw [Int.toNat_of_nonneg (by omega : (0:ℤ) ≤ el + 1)]; omega)]

/-- The `mm = 0` column of the eighth recursion vanishes at every odd depth:
`t1` carries the factor `2 * mm = 0`, so the `m = el - 1` entry is zero and
zeros propagate down the two-step recursion. -/
lemma colVal_col0_odd (ops : NumOps K) (dl : Plane K) (el : ℤ) (k : ℕ)
    (hk : k % 2 = 1) : colVal ops dl el 0 k = 0 := by
  induction k using Nat.strong_induction_on with
  | _ k ih =>
    match k, hk with
    | 1, _ =>
      show 2 * ((0 : ℤ) : K) / ops.sqrt (((el - (el - 1) : ℤ) : K))
          / ops.sqrt (((el + (el - 1) + 1 : ℤ) : K)) * colVal ops dl el 0 0 = 0
      push_cast
      ring
    | (j + 2), hk =>
      have hj : j % 2 = 1 := by omega
      have hz := ih j (by omega) hj
      show 2 * ((0 : ℤ) : K) / ops.sqrt (((el - (el - 2 - (j : ℤ)) : ℤ) : K))
            / ops.sqrt (((el + (el - 2 - (j : ℤ)) + 1 : ℤ) : K)) * colVal ops dl el 0 (j + 1)
          - ops.sqrt (((el - (el - 2 - (j : ℤ)) - 1 : ℤ) : K))
            * ops.sqrt (((el + (el - 2 - (j : ℤ)) + 2 : ℤ) : K))
            / ops.sqrt (((el - (el - 2 - (j : ℤ)) : ℤ) : K))
            / ops.sqrt (((el + (el - 2 - (j : ℤ)) + 1 : ℤ) : K)) * colVal ops dl el 0 j = 0
      rw [hz]
      push_cast
      ring

/-! ### Shape preservation

Every write is an `ent`-only update, so all cores keep the plane's shape. -/

lemma quarterInner_dims (el m : ℤ) (j : ℕ) (d : Plane K) :
    (quarterInner el m j d).rows = d.rows ∧ (quarterInner el m j d).cols = d.cols := by
  induction j with
  | zero => exact ⟨rfl, rfl⟩
  | succ j ih => exact ih

lemma quarterOuter_dims (el : ℤ) (i : ℕ) (d : Plane K) :
    (quarterOuter el i d).rows = d.rows ∧ (quarterOuter el i d).cols = d.cols := by
  induction i with
  | zero => exact ⟨rfl, rfl⟩
  | succ i ih =>
    have h := quarterInner_dims (K := K) el (i : ℤ) (el - i).toNat (quarterOuter el i d)
    exact ⟨h.1.trans ih.1, h.2.trans ih.2⟩

lemma halfInner_dims (el mm : ℤ) (j : ℕ) (d : Plane K) :
    (halfInner el mm j d).rows = d.rows ∧ (halfInner el mm j d).cols = d.cols := by
  induction j with
  | zero => exact ⟨rfl, rfl⟩
  | succ j ih => exact ih

lemma halfOuter_dims (el : ℤ) (i : ℕ) (d : Plane K) :
    (halfOuter el i d).rows = d.rows ∧ (halfOuter el i d).cols = d.cols := by
  induction i with
  | zero => exact ⟨rfl, rfl⟩
  | succ i ih =>
    have h := halfInner_dims (K := K) el (i : ℤ) el.toNat (halfOuter el i d)
    exact ⟨h.1.trans ih.1, h.2.trans ih.2⟩

lemma fullInner_dims (el mm : ℤ) (j : ℕ) (d : Plane K) :
    (fullInner el mm j d).rows = d.rows ∧ (fullInner el mm j d).cols = d.cols := by
  induction j with
  | zero => exact ⟨rfl, rfl⟩
  | succ j ih => exact ih

lemma fullOuter_dims (el : ℤ) (i : ℕ) (d : Plane K) :
    (fullOuter el i d).rows = d.rows ∧ (fullOuter el i d).cols = d.cols := by
  induction i with
  | zero => exact ⟨rfl, rfl⟩
  | succ i ih =>
    have h := fullInner_dims (K := K) el (-el + i) (2 * el + 1).toNat (fullOuter el i d)
    exact ⟨h.1.trans ih.1, h.2.trans ih.2⟩

lemma eighthColLoop_dims (ops : NumOps K) (el mm : ℤ) (j : ℕ) (d : Plane K) :
    (eighthColLoop ops el mm j d).rows = d.rows ∧ (eighthColLoop ops el mm j d).cols = d.cols := by
  induction j with
  | zero => exact ⟨rfl, rfl⟩
  | succ j ih => exact ih

lemma eighthCols_dims (ops : NumOps K) (el : ℤ) (i : ℕ) (d : Plane K) :
    (eighthCols ops el i d).rows = d.rows ∧ (eighthCols ops el i d).cols = d.cols := by
  induction i with
  | zero => exact ⟨rfl, rfl⟩
  | succ i ih =>
    have h := eighthColLoop_dims ops el (i : ℤ) (el - 1 - i).toNat
      (eighthColTop ops el (i : ℤ) (eighthCols ops el i d))
    exact ⟨h.1.trans ih.1, h.2.trans ih.2⟩

lemma compute_eighthCore_dims (ops : NumOps K) (dl : Plane K) (L el : ℤ) :
    (compute_eighthCore ops dl L el).rows = dl.rows ∧
      (compute_eighthCore ops dl L el).cols = dl.cols := by
  unfold compute_eighthCore
  by_cases h : el = 0
  · rw [if_pos h]; exact ⟨rfl, rfl⟩
  · rw [if_neg h]
    have h := eighthCols_dims ops el (el + 1).toNat (eighthInit ops dl el)
    exact h

lemma compute_fullCore_dims (ops : NumOps K) (dl : Plane K) (L el : ℤ) :
    (compute_fullCore ops dl L el).rows = dl.rows ∧
      (compute_fullCore ops dl L el).cols = dl.cols := by
  unfold compute_fullCore fill_half2fullCore fill_quarter2halfCore fill_eighth2quarterCore
  have h1 := compute_eighthCore_dims ops dl L el
  have h2 := quarterOuter_dims (K := K) el (el + 1).toNat (compute_eighthCore ops dl L el)
  have h3 := halfOuter_dims (K := K) el (el + 1).toNat
    (quarterOuter el (el + 1).toNat (compute_eighthCore ops dl L el))
  have h4 := fullOuter_dims (K := K) el el.toNat
    (halfOuter el (el + 1).toNat (quarterOuter el (el + 1).toNat (compute_eighthCore ops dl L el)))
  exact ⟨(h4.1.trans h3.1).trans (h2.1.trans h1.1), (h4.2.trans h3.2).trans (h2.2.trans h1.2)⟩

/-! ### The full-plane symmetry -/

lemma quarter_ent_ge (ops : NumOps K) (dl : Plane K) (L el : ℤ) (hel : 1 ≤ el)
    (a b : ℤ) (hb : 0 ≤ b) (hba : b ≤ a) (ha : a ≤ el) :
    (fill_eighth2quarterCore el (compute_eighthCore ops dl L el)).ent a b
      = colVal ops dl el b ((el - a).toNat) := by
  rw [fill_eighth2quarterCore_ent el (by omega), if_neg (by omega),
    compute_eighthCore_ent ops dl L el hel a b hb hba ha]

lemma quarter_ent_lt (ops : NumOps K) (dl : Plane K) (L el : ℤ) (hel : 1 ≤ el)
    (a b : ℤ) (ha : 0 ≤ a) (hab : a < b) (hb : b ≤ el) :
    (fill_eighth2quarterCore el (compute_eighthCore ops dl L el)).ent a b
      = (-1 : K) ^ (a + b) * colVal ops dl el a ((el - b).toNat) := by
  rw [fill_eighth2quarterCore_ent el (by omega), if_pos (by omega),
    compute_eighthCore_ent ops dl L el hel b a (by omega) (by omega) hb]

lemma quarter_ent_row0_zero (ops : NumOps K) (dl : Plane K) (L el : ℤ) (hel : 1 ≤ el)
    (b : ℤ) (hb : 0 ≤ b) (hbel : b ≤ el) (hodd : (el + b) % 2 = 1) :
    (fill_eighth2quarterCore el (compute_eighthCore ops dl L el)).ent b 0 = 0 := by
  rw [quarter_ent_ge ops dl L el hel b 0 le_rfl hb hbel]
  exact colVal_col0_odd ops dl el _ (by omega)

lemma quarter_ent_col0_zero (ops : NumOps K) (dl : Plane K) (L el : ℤ) (hel : 1 ≤ el)
    (b : ℤ) (hb : 0 ≤ b) (hbel : b ≤ el) (hodd : (el + b) % 2 = 1) :
    (fill_eighth2quarterCore el (compute_eighthCore ops dl L el)).ent 0 b = 0 := by
  rcases eq_or_lt_of_le hb with hb0 | hb0
  · rw [← hb0]
    exact quarter_ent_row0_zero ops dl L el hel 0 le_rfl (by omega) (by omega)
  · rw [quarter_ent_lt ops dl L el hel 0 b le_rfl hb0 hbel,
      colVal_col0_odd ops dl el _ (by omega), mul_zero]

/-- The symmetry `d^l_{m,m'} = (-1)^(m-m') d^l_{-m,-m'}` of the plane built
by `compute_full`, for any input plane: it follows from the three fill
re-indexings together with the vanishing of the odd-depth entries of the
`mm = 0` column of the eighth recursion. -/
lemma compute_fullCore_symm (ops : NumOps K) (dl : Plane K) (L el : ℤ)
    (hel : 1 ≤ el) (m mm : ℤ) (hm : |m| ≤ el) (hmm : |mm| ≤ el) :
    (compute_fullCore ops dl L el).ent m mm
      = (-1 : K) ^ (m - mm) * (compute_fullCore ops dl L el).ent (-m) (-mm) := by
  have hm' := abs_le.mp hm
  have hmm' := abs_le.mp hmm
  unfold compute_fullCore
  rcases lt_trichotomy m 0 with hm0 | hm0 | hm0 <;>
    rcases lt_trichotomy mm 0 with hmm0 | hmm0 | hmm0
  · -- m < 0, mm < 0
    rw [fill_half2fullCore_ent el (by omega) _ m mm, if_pos (by omega)]
    rw [fill_quarter2halfCore_ent el (by omega) _ m (-mm), if_pos (by omega)]
    rw [fill_half2fullCore_ent el (by omega) _ (-m) (-mm), if_neg (by omega)]
    rw [fill_quarter2halfCore_ent el (by omega) _ (-m) (-mm), if_neg (by omega)]
    rw [abs_of_neg hm0, neg_one_zpow_merge,
      neg_one_zpow_congr (by omega : (el + -m + (el + -mm)) % 2 = (m - mm) % 2)]
  · -- m < 0, mm = 0
    subst hmm0
    rw [neg_zero]
    rw [fill_half2fullCore_ent el (by omega) _ m 0, if_neg (by omega)]
    rw [fill_quarter2halfCore_ent el (by omega) _ m 0, if_pos (by omega)]
    rw [fill_half2fullCore_ent el (by omega) _ (-m) 0, if_neg (by omega)]
    rw [fill_quarter2halfCore_ent el (by omega) _ (-m) 0, if_neg (by omega)]
    rcases Int.emod_two_eq_zero_or_one (el + m) with hpar | hpar
    · rw [neg_one_zpow_congr (by omega : (el + 0) % 2 = (m - 0) % 2)]
    · rw [quarter_ent_row0_zero ops dl L el hel (-m) (by omega) (by omega) (by omega),
        mul_zero, mul_zero]
  · -- m < 0, mm > 0
    rw [fill_half2fullCore_ent el (by omega) _ m mm, if_neg (by omega)]
    rw [fill_quarter2halfCore_ent el (by omega) _ m mm, if_pos (by omega)]
    rw [fill_half2fullCore_ent el (by omega) _ (-m) (-mm), if_pos (by omega), neg_neg]
    rw [fill_quarter2halfCore_ent el (by omega) _ (-m) mm, if_neg (by omega)]
    rw [abs_neg, abs_of_neg hm0, neg_one_zpow_merge,
      neg_one_zpow_congr (by omega : (m - mm + (el + -m)) % 2 = (el + mm) % 2)]
  · -- m = 0, mm < 0
    subst hm0
    rw [neg_zero]
    rw [fill_half2fullCore_ent el (by omega) _ 0 mm, if_pos (by omega)]
    rw [fill_quarter2halfCore_ent el (by omega) _ 0 (-mm), if_neg (by omega)]
    rw [fill_half2fullCore_ent el (by omega) _ 0 (-mm), if_neg (by omega)]
    rw [fill_quarter2halfCore_ent el (by omega) _ 0 (-mm), if_neg (by omega)]
    rcases Int.emod_two_eq_zero_or_one (el + mm) with hpar | hpar
    · rw [abs_zero, neg_one_zpow_congr (by omega : (el + 0) % 2 = (0 - mm) % 2)]
    · rw [quarter_ent_col0_zero ops dl L el hel (-mm) (by omega) (by omega) (by omega),
        mul_zero, mul_zero]
  · -- m = 0, mm = 0
    subst hm0
    subst hmm0
    rw [neg_zero, sub_zero, zpow_zero, one_mul]
  · -- m = 0, mm > 0
    subst hm0
    rw [neg_zero]
    rw [fill_half2fullCore_ent el (by omega) _ 0 mm, if_neg (by omega)]
    rw [fill_quarter2halfCore_ent el (by omega) _ 0 mm, if_neg (by omega)]
    rw [fill_half2fullCore_ent el (by omega) _ 0 (-mm), if_pos (by omega), neg_neg]
    rw [fill_quarter2halfCore_ent el (by omega) _ 0 mm, if_neg (by omega)]
    rcases Int.emod_two_eq_zero_or_one (el + mm) with hpar | hpar
    · rw [abs_zero, neg_one_zpow_merge,
        neg_one_zpow_congr (by omega : (0 - mm + (el + 0)) % 2 = 0 % 2), zpow_zero, one_mul]
    · rw [quarter_ent_col0_zero ops dl L el hel mm (by omega) (by omega) (by omega),
        mul_zero, mul_zero]
  · -- m > 0, mm < 0
    rw [fill_half2fullCore_ent el (by omega) _ m mm, if_pos (by omega)]
    rw [fill_quarter2halfCore_ent el (by omega) _ m (-mm), if_neg (by omega)]
    rw [fill_half2fullCore_ent el (by omega) _ (-m) (-mm), if_neg (by omega)]
    rw [fill_quarter2halfCore_ent el (by omega) _ (-m) (-mm), if_pos (by omega), neg_neg]
    rw [abs_of_pos hm0, neg_one_zpow_merge,
      neg_one_zpow_congr (by omega : (m - mm + (el + -mm)) % 2 = (el + m) % 2)]
  · -- m > 0, mm = 0
    subst hmm0
    rw [neg_zero]
    rw [fill_half2fullCore_ent el (by omega) _ m 0, if_neg (by omega)]
    rw [fill_quarter2halfCore_ent el (by omega) _ m 0, if_neg (by omega)]
    rw [fill_half2fullCore_ent el (by omega) _ (-m) 0, if_neg (by omega)]
    rw [fill_quarter2halfCore_ent el (by omega) _ (-m) 0, if_pos (by omega), neg_neg]
    rcases Int.emod_two_eq_zero_or_one (el + m) with hpar | hpar
    · rw [neg_one_zpow_merge,
        neg_one_zpow_congr (by omega : (m - 0 + (el + 0)) % 2 = 0 % 2), zpow_zero, one_mul]
    · rw [quarter_ent_row0_zero ops dl L el hel m (by omega) (by omega) (by omega),
        mul_zero, mul_zero]
  · -- m > 0, mm > 0
    rw [fill_half2fullCore_ent el (by omega) _ m mm, if_neg (by omega)]
    rw [fill_quarter2halfCore_ent el (by omega) _ m mm, if_neg (by omega)]
    rw [fill_half2fullCore_ent el (by omega) _ (-m) (-mm), if_pos (by omega), neg_neg]
    rw [fill_quarter2halfCore_ent el (by omega) _ (-m) mm, if_pos (by omega), neg_neg]
    rw [abs_neg, abs_of_pos hm0,
      neg_one_zpow_triple_cancel (m - mm) (el + m) (el + mm) (by omega)]

end trapani

/-! ## Claims C4 and C8 -/

/-- **C4, counterexample.**  The quarter-to-half fill applies the sign
`(-1)^(l + m')` (second index), not `(-1)^(l + m)` as claimed: for `l = 1`
and a quarter plane with `d[1, 0] = 1`, the filled cell `(m, m') = (-1, 0)`
holds `-1`, whereas the claimed sign `(-1)^(l + m) = (-1)^(1 + (-1)) = 1`
would make it `+1`. -/
theorem C4_counterexample :
    (trapani.fill_quarter2halfCore 1
        ⟨3, 3, fun a b => if a = 1 ∧ b = 0 then (1 : ℚ) else 0⟩).ent (-1) 0
      ≠ (-1 : ℚ) ^ ((1 : ℤ) + (-1)) *
        (⟨3, 3, fun a b => if a = 1 ∧ b = 0 then (1 : ℚ) else 0⟩ : trapani.Plane ℚ).ent 1 0 := by
  rw [trapani.fill_quarter2halfCore_ent 1 (by norm_num)]
  rw [if_pos (by norm_num)]
  norm_num

/-- **C4 (amended).**  Each Trapani fill step is a pure reindexing with a
fixed sign factor and no recomputation — eighth-to-quarter with
`(-1)^(m+m')`, quarter-to-half with `(-1)^(l+m')` (the sign depends on the
second index `m'`, not on `m`), half-to-full with `(-1)^(l+|m|)` — and for
every degree `l < L` the full `π/2` plane produced by `compute_full`
satisfies `d^l_{m,m'} = (-1)^(m-m') d^l_{-m,-m'}` for all
`-l ≤ m, m' ≤ l`. -/
theorem C4_trapani_fill_signs_and_plane_symmetry {K : Type} [Field K]
    (ops : NumOps K) (dl : trapani.Plane K) (L el : ℤ) (hel : 0 ≤ el) (hL : el < L) :
    (∀ m mm : ℤ, 0 ≤ m → m < mm → mm ≤ el →
      (trapani.fill_eighth2quarterCore el dl).ent m mm = (-1 : K) ^ (m + mm) * dl.ent mm m)
    ∧ (∀ m mm : ℤ, -el ≤ m → m < 0 → 0 ≤ mm → mm ≤ el →
      (trapani.fill_quarter2halfCore el dl).ent m mm = (-1 : K) ^ (el + mm) * dl.ent (-m) mm)
    ∧ (∀ m mm : ℤ, -el ≤ m → m ≤ el → -el ≤ mm → mm < 0 →
      (trapani.fill_half2fullCore el dl).ent m mm = (-1 : K) ^ (el + |m|) * dl.ent m (-mm))
    ∧ (∀ m mm : ℤ, |m| ≤ el → |mm| ≤ el →
      (trapani.compute_fullCore ops dl L el).ent m mm
        = (-1 : K) ^ (m - mm) * (trapani.compute_fullCore ops dl L el).ent (-m) (-mm)) := by
  refine ⟨?_, ?_, ?_, ?_⟩
  · intro m mm h1 h2 h3
    rw [trapani.fill_eighth2quarterCore_ent el hel, if_pos (by omega)]
  · intro m mm h1 h2 h3 h4
    rw [trapani.fill_quarter2halfCore_ent el hel, if_pos (by omega)]
  · intro m mm h1 h2 h3 h4
    rw [trapani.fill_half2fullCore_ent el hel, if_pos (by omega)]
  · intro m mm hm hmm
    rcases eq_or_lt_of_le hel with h0 | h1
    · have hm0 : m = 0 := by have := abs_le.mp hm; omega
      have hmm0 : mm = 0 := by have := abs_le.mp hmm; omega
      subst hm0
      subst hmm0
      rw [neg_zero, sub_zero, zpow_zero, one_mul]
    · exact trapani.compute_fullCore_symm ops dl L el h1 m mm hm hmm

/-- Witness for C4: the theorem applies at the concrete input
`K = ℚ`, trivial ops, a `1 × 1` zero plane, `L = 1`, `el = 0`. -/
theorem C4_witness :
    (0 : ℤ) ≤ 0 ∧ (0 : ℤ) < 1 ∧
      (trapani.compute_fullCore (⟨id, id, id, id, id, id, 0⟩ : NumOps ℚ)
            ⟨1, 1, fun _ _ => 0⟩ 1 0).ent 0 0
        = (-1 : ℚ) ^ ((0 : ℤ) - 0) *
          (trapani.compute_fullCore (⟨id, id, id, id, id, id, 0⟩ : NumOps ℚ)
            ⟨1, 1, fun _ _ => 0⟩ 1 0).ent (-0) (-0) :=
  ⟨le_refl 0, by norm_num,
    (C4_trapani_fill_signs_and_plane_symmetry (⟨id, id, id, id, id, id, 0⟩ : NumOps ℚ)
      ⟨1, 1, fun _ _ => 0⟩ 1 0 (le_refl 0) (by norm_num)).2.2.2 0 0 (by norm_num) (by norm_num)⟩

/-- **C8.**  When the band-limit exceeds the documented stable range
(`L > 1024`), every Trapani-engine call (`compute_eighth`, the fill steps,
`compute_full`) reports a non-fatal warning and proceeds — it never fails on
that ground — while the preconditions `0 ≤ el < L` and plane shape
`(2L-1) × (2L-1)` are still checked on every call and their violation is an
error. -/
theorem C8_trapani_warning_and_precondition_checks {K : Type} [Field K]
    (ops : NumOps K) (dl : trapani.Plane K) (L el : ℤ) :
    (L > 1024 → 0 ≤ el → el < L →
      (dl.rows : ℤ) = 2 * L - 1 → (dl.cols : ℤ) = 2 * L - 1 →
      trapani.compute_eighth ops dl L el
          = .ok (["Trapani recursion may not be stable for L > 1024"],
              trapani.compute_eighthCore ops dl L el)
        ∧ trapani.fill_eighth2quarter dl L el
          = .ok (["Trapani recursion may not be stable for L > 1024"],
              trapani.fill_eighth2quarterCore el dl)
        ∧ trapani.fill_quarter2half dl L el
          = .ok (["Trapani recursion may not be stable for L > 1024"],
              trapani.fill_quarter2halfCore el dl)
        ∧ trapani.fill_half2full dl L el
          = .ok (["Trapani recursion may not be stable for L > 1024"],
              trapani.fill_half2fullCore el dl)
        ∧ trapani.compute_full ops dl L el
          = .ok (List.replicate 5 "Trapani recursion may not be stable for L > 1024",
              trapani.compute_fullCore ops dl L el))
    ∧ (¬ (0 ≤ el ∧ el < L ∧ (dl.rows : ℤ) = 2 * L - 1 ∧ (dl.cols : ℤ) = 2 * L - 1) →
      (∃ e, trapani.compute_eighth ops dl L el = .error e)
        ∧ (∃ e, trapani.fill_eighth2quarter dl L el = .error e)
        ∧ (∃ e, trapani.fill_quarter2half dl L el = .error e)
        ∧ (∃ e, trapani.fill_half2full dl L el = .error e)
        ∧ (∃ e, trapani.compute_full ops dl L el = .error e)) := by
  constructor
  · intro hbig hel hL hr hc
    have hchk : trapani._arg_checks dl L el
        = .ok ["Trapani recursion may not be stable for L > 1024"] := by
      unfold trapani._arg_checks
      rw [if_neg (not_not_intro ⟨hel, hL⟩), if_neg (not_not_intro ⟨hr, hc⟩), if_pos hbig]
    have h8 : trapani.compute_eighth ops dl L el
        = .ok (["Trapani recursion may not be stable for L > 1024"],
            trapani.compute_eighthCore ops dl L el) := by
      unfold trapani.compute_eighth
      rw [hchk]
      rfl
    have hq : trapani.fill_eighth2quarter dl L el
        = .ok (["Trapani recursion may not be stable for L > 1024"],
            trapani.fill_eighth2quarterCore el dl) := by
      unfold trapani.fill_eighth2quarter
      rw [hchk]
      rfl
    have hh : trapani.fill_quarter2half dl L el
        = .ok (["Trapani recursion may not be stable for L > 1024"],
            trapani.fill_quarter2halfCore el dl) := by
      unfold trapani.fill_quarter2half
      rw [hchk]
      rfl
    have hf : trapani.fill_half2full dl L el
        = .ok (["Trapani recursion may not be stable for L > 1024"],
            trapani.fill_half2fullCore el dl) := by
      unfold trapani.fill_half2full
      rw [hchk]
      rfl
    refine ⟨h8, hq, hh, hf, ?_⟩
    have hd8 := trapani.compute_eighthCore_dims ops dl L el
    have hdq := trapani.quarterOuter_dims (K := K) el (el + 1).toNat
      (trapani.compute_eighthCore ops dl L el)
    have hdh := trapani.halfOuter_dims (K := K) el (el + 1).toNat
      (trapani.quarterOuter el (el + 1).toNat (trapani.compute_eighthCore ops dl L el))
    have hchk1 : trapani._arg_checks (trapani.compute_eighthCore ops dl L el) L el
        = .ok ["Trapani recursion may not be stable for L > 1024"] := by
      unfold trapani._arg_checks
      rw [if_neg (not_not_intro ⟨hel, hL⟩),
        if_neg (not_not_intro ⟨by rw [hd8.1]; exact hr, by rw [hd8.2]; exact hc⟩), if_pos hbig]
    have hchk2 : trapani._arg_checks
        (trapani.fill_eighth2quarterCore el (trapani.compute_eighthCore ops dl L el)) L el
        = .ok ["Trapani recursion may not be stable for L > 1024"] := by
      unfold trapani._arg_checks trapani.fill_eighth2quarterCore
      rw [if_neg (not_not_intro ⟨hel, hL⟩),
        if_neg (not_not_intro ⟨by rw [hdq.1, hd8.1]; exact hr,
          by rw [hdq.2, hd8.2]; exact hc⟩), if_pos hbig]
    have hchk3 : trapani._arg_checks
        (trapani.fill_quarter2halfCore el
          (trapani.fill_eighth2quarterCore el (trapani.compute_eighthCore ops dl L el))) L el
        = .ok ["Trapani recursion may not be stable for L > 1024"] := by
      unfold trapani._arg_checks trapani.fill_quarter2halfCore trapani.fill_eighth2quarterCore
      rw [if_neg (not_not_intro ⟨hel, hL⟩),
        if_neg (not_not_intro ⟨by rw [hdh.1, hdq.1, hd8.1]; exact hr,
          by rw [hdh.2, hdq.2, hd8.2]; exact hc⟩), if_pos hbig]
    unfold trapani.compute_full
    rw [hchk, h8]
    show (trapani.fill_eighth2quarter (trapani.compute_eighthCore ops dl L el) L el).bind _
        = _
    unfold trapani.fill_eighth2quarter
    rw [hchk1]
    show (trapani.fill_quarter2half
        (trapani.fill_eighth2quarterCore el (trapani.compute_eighthCore ops dl L el)) L el).bind _
        = _
    unfold trapani.fill_quarter2half
    rw [hchk2]
    show (trapani.fill_half2full (trapani.fill_quarter2halfCore el
        (trapani.fill_eighth2quarterCore el (trapani.compute_eighthCore ops dl L el))) L el).bind _
        = _
    unfold trapani.fill_half2full
    rw [hchk3]
    rfl
  · intro hbad
    have hchk : ∃ e, trapani._arg_checks dl L el = .error e := by
      unfold trapani._arg_checks
      by_cases hval : 0 ≤ el ∧ el < L
      · refine ⟨"assert dl.shape[0] == dl.shape[1] == 2 * L - 1 failed", ?_⟩
        rw [if_neg (not_not_intro hval), if_pos (by tauto)]
      · exact ⟨"assert 0 <= el < L failed", by rw [if_pos hval]⟩
    obtain ⟨e, he⟩ := hchk
    refine ⟨⟨e, ?_⟩, ⟨e, ?_⟩, ⟨e, ?_⟩, ⟨e, ?_⟩, ⟨e, ?_⟩⟩
    · unfold trapani.compute_eighth
      rw [he]
      rfl
    · unfold trapani.fill_eighth2quarter
      rw [he]
      rfl
    · unfold trapani.fill_quarter2half
      rw [he]
      rfl
    · unfold trapani.fill_half2full
      rw [he]
      rfl
    · unfold trapani.compute_full
      rw [he]
      rfl

/-- A numpy 2-d array with Nat-indexed entries (pixel grids, ftm grids). -/
structure Arr2 (K : Type) where
  rows : ℕ
  cols : ℕ
  ent : ℕ → ℕ → K

/-- The `[L, 2L-1]` harmonic coefficient array; `ent el m` is the python
entry `flm[el, m + L - 1]`. -/
structure FlmArr (K : Type) where
  rows : ℕ
  cols : ℕ
  ent : ℕ → ℤ → K

namespace transform

/-! ## `s2fft/transform.py`

The public `inverse`/`forward` entry points call `_inverse`/`_forward` with
`method="sov_fft_vectorized"`, whose dictionary lookup selects
`_compute_inverse_sov_fft_vectorized` / `_compute_forward_sov_fft_vectorized`.
We embed that end-to-end path.  The helper modules `transform.py` imports
(`samples`, `quadrature`, `resampling`, `healpix_ffts`, `wigner.turok`) and
the external numpy FFT are not part of src/: they are collected as the
abstract collaborator record `Ext`, and the one shape rule a validation
compares against directly (`samples.flm_shape`) is modelled from the spec. -/

/-- Modelled from the spec: `samples.flm_shape(L)` (the `samples` module is
not under src/); §3 fixes flm storage as a dense `[L, 2L-1]` array. -/
def flm_shape (L : ℕ) : ℕ × ℕ := (L, 2 * L - 1)

/-- The collaborators `transform.py` imports that are not part of src/:
sampling geometry and quadrature (`samples`, `quadrature`), the Turok
Wigner-d slice (`wigner.turok.compute_slice`), the resampling adapter, the
HEALPix FFT adapter, and the external numpy FFT routines. -/
structure Ext (K : Type) where
  thetas : ℕ → String → Option ℕ → List K
  f_shape : ℕ → String → Option ℕ → ℕ × ℕ
  ftm_shape : ℕ → String → Option ℕ → ℕ × ℕ
  quad_weights_transform : ℕ → String → ℤ → Option ℕ → (ℕ → K)
  compute_slice : K → ℕ → ℕ → ℤ → (ℤ → K)
  ring_phase_shift_hp : ℕ → ℕ → Option ℕ → Bool → (ℤ → K)
  fft : Arr2 K → Arr2 K
  fftshift : Arr2 K → Arr2 K
  ifft : Arr2 K → Arr2 K
  ifftshift : Arr2 K → Arr2 K
  healpix_fft : Arr2 K → ℕ → Option ℕ → Arr2 K
  healpix_ifft : Arr2 K → ℕ → Option ℕ → Arr2 K
  mw_to_mwss : Arr2 K → ℕ → ℤ → Arr2 K
  upsample_by_two_mwss : Arr2 K → ℕ → ℤ → Arr2 K

variable {K : Type} [Field K]

/-- One `el`-iteration of the inverse vectorized method, at ring `t`:
`ftm[t, m_offset : 2L-1+m_offset] += elfactor * dl * flm[el, :] * phase`.
Column `j` of `ftm` holds order `m = j - m_offset - (L-1)`. -/
def inverseElStep (ops : NumOps K) (ext : Ext K) (flm : FlmArr K) (L : ℕ) (spin : ℤ)
    (m_offset : ℕ) (theta : K) (phase : ℤ → K) (t : ℕ) (acc2 : Arr2 K) (el : ℕ) : Arr2 K :=
  let dl := ext.compute_slice theta el L (-spin)
  let elfactor := ops.sqrt (((2 * el + 1 : ℕ) : K) / (4 * ops.pi))
  { acc2 with
    ent := fun t' j =>
      if t' = t ∧ m_offset ≤ j ∧ j < 2 * L - 1 + m_offset then
        acc2.ent t' j
          + elfactor * dl ((j : ℤ) - (m_offset : ℤ) - ((L : ℤ) - 1))
            * flm.ent el ((j : ℤ) - (m_offset : ℤ) - ((L : ℤ) - 1))
            * phase ((j : ℤ) - (m_offset : ℤ) - ((L : ℤ) - 1))
      else acc2.ent t' j }

/-- One ring (`t`) iteration of the inverse vectorized method: the HEALPix
phase shift (or the scalar `1.0`) and the loop over degrees
`el = max(L0, |spin|), …, L-1`. -/
def inverseRingStep (ops : NumOps K) (ext : Ext K) (flm : FlmArr K) (L : ℕ) (spin : ℤ)
    (sampling : String) (thetas : List K) (nside : Option ℕ) (m_offset elmin : ℕ)
    (acc : Arr2 K) (t : ℕ) : Arr2 K :=
  let theta := thetas.getD t 0
  let phase : ℤ → K :=
    if pyLower sampling = "healpix" then ext.ring_phase_shift_hp L t nside false
    else fun _ => 1
  (List.range' elmin (L - elmin)).foldl
    (inverseElStep ops ext flm L spin m_offset theta phase t) acc

/-- `_compute_inverse_sov_fft_vectorized`: accumulate the per-ring Fourier
coefficients on a zero `ftm_shape` grid, scale by `(-1)^spin`, then the
inverse FFT (HEALPix ragged or uniform). -/
def _compute_inverse_sov_fft_vectorized (ops : NumOps K) (ext : Ext K)
    (flm : FlmArr K) (L : ℕ) (spin : ℤ) (sampling : String) (thetas : List K)
    (nside : Option ℕ) (L0 : ℤ) : Arr2 K :=
  let shp := ext.ftm_shape L sampling nside
  let m_offset : ℕ := if sampling = "mwss" ∨ sampling = "healpix" then 1 else 0
  let elmin : ℕ := (max L0 |spin|).toNat
  let ftm := (List.range thetas.length).foldl
    (inverseRingStep ops ext flm L spin sampling thetas nside m_offset elmin)
    ⟨shp.1, shp.2, fun _ _ => 0⟩
  let ftm2 : Arr2 K := { ftm with ent := fun t j => ftm.ent t j * (-1 : K) ^ spin }
  if pyLower sampling = "healpix" then ext.healpix_ifft ftm2 L nside
  else ext.ifft (ext.ifftshift ftm2)

/-- One `el`-iteration of the forward vectorized method at ring `t`:
`flm[el, :] += weights[t] * elfactor * (dl * ftm[t, m_offset : 2L-1+m_offset])
* phase`; `ftmRow` is row `t` of `ftm` and `wt` is `weights[t]`. -/
def forwardElStep (ops : NumOps K) (ext : Ext K) (L : ℕ) (spin : ℤ) (m_offset : ℕ)
    (theta : K) (phase : ℤ → K) (wt : K) (ftmRow : ℕ → K) (acc2 : FlmArr K)
    (el : ℕ) : FlmArr K :=
  let dl := ext.compute_slice theta el L (-spin)
  let elfactor := ops.sqrt (((2 * el + 1 : ℕ) : K) / (4 * ops.pi))
  { acc2 with
    ent := fun el' m =>
      if el' = el ∧ -((L : ℤ) - 1) ≤ m ∧ m ≤ (L : ℤ) - 1 then
        acc2.ent el' m
          + wt * elfactor * (dl m * ftmRow ((m + ((L : ℤ) - 1)).toNat + m_offset)) * phase m
      else acc2.ent el' m }

/-- One ring (`t`) iteration of the forward vectorized method. -/
def forwardRingStep (ops : NumOps K) (ext : Ext K) (L : ℕ) (spin : ℤ)
    (sampling : String) (thetas : List K) (weights : ℕ → K) (nside : Option ℕ)
    (ftm : Arr2 K) (m_offset elmin : ℕ) (acc : FlmArr K) (t : ℕ) : FlmArr K :=
  let theta := thetas.getD t 0
  let phase : ℤ → K :=
    if pyLower sampling = "healpix" then ext.ring_phase_shift_hp L t nside true
    else fun _ => 1
  (List.range' elmin (L - elmin)).foldl
    (forwardElStep ops ext L spin m_offset theta phase (weights t) (ftm.ent t)) acc

/-- `_compute_forward_sov_fft_vectorized`: azimuthal FFT of the signal
(HEALPix ragged or `fftshift ∘ fft`), the double ring/degree accumulation
into a zero `[L, 2L-1]` array, and the final `(-1)^spin` scaling. -/
def _compute_forward_sov_fft_vectorized (ops : NumOps K) (ext : Ext K)
    (f : Arr2 K) (L : ℕ) (spin : ℤ) (sampling : String) (thetas : List K)
    (weights : ℕ → K) (nside : Option ℕ) (L0 : ℤ) : FlmArr K :=
  let ftm := if pyLower sampling = "healpix" then ext.healpix_fft f L nside
             else ext.fftshift (ext.fft f)
  let m_offset : ℕ := if sampling = "mwss" ∨ sampling = "healpix" then 1 else 0
  let elmin : ℕ := (max L0 |spin|).toNat
  let flm := (List.range thetas.length).foldl
    (forwardRingStep ops ext L spin sampling thetas weights nside ftm m_offset elmin)
    ⟨(flm_shape L).1, (flm_shape L).2, fun _ _ => 0⟩
  { flm with ent := fun el m => flm.ent el m * (-1 : K) ^ spin }

/-- Lines 163–172 of `_forward`: the resampling routing.  For `"mw"` the
signal is first converted to the `"mwss"` grid; for `"mw"` and `"mwss"` it
is then upsampled by two onto the doubled grid and the per-ring contraction
runs with `sampling = "mwss"` on `thetas(2L, "mwss")`; every other scheme
passes the signal through unresampled. -/
def forwardPreprocess (ext : Ext K) (f : Arr2 K) (L : ℕ) (spin : ℤ)
    (sampling : String) (nside : Option ℕ) : String × Arr2 K × List K :=
  let f1 := if pyLower sampling = "mw" then ext.mw_to_mwss f L spin else f
  if pyLower sampling = "mw" ∨ pyLower sampling = "mwss" then
    ("mwss", ext.upsample_by_two_mwss f1 L spin, ext.thetas (2 * L) "mwss" none)
  else
    (sampling, f1, ext.thetas L sampling nside)

/-- `inverse(flm, L, spin, sampling, nside, L0)` =
`_inverse(..., method="sov_fft_vectorized")`: the three assertions of
`_inverse` (flm shape, `0 <= |spin| < L`, `L0 < L`), then the vectorized
method on `thetas(L, sampling, nside)`. -/
def inverse (ops : NumOps K) (ext : Ext K) (flm : FlmArr K) (L : ℕ) (spin : ℤ)
    (sampling : String) (nside : Option ℕ) (L0 : ℤ) : Except String (Arr2 K) :=
  if ¬ ((flm.rows, flm.cols) = flm_shape L) then
    .error "assert flm.shape == samples.flm_shape(L) failed"
  else if ¬ (0 ≤ |spin| ∧ |spin| < (L : ℤ)) then
    .error "assert 0 <= np.abs(spin) < L failed"
  else if ¬ (L0 < (L : ℤ)) then .error "assert L0 < L failed"
  else .ok (_compute_inverse_sov_fft_vectorized ops ext flm L spin sampling
    (ext.thetas L sampling nside) nside L0)

/-- `forward(f, L, spin, sampling, nside, L0)` =
`_forward(..., method="sov_fft_vectorized")`: the three assertions of
`_forward` (signal shape, `0 <= |spin| < L`, `L0 < L`), the resampling
routing, the quadrature weights at the (possibly reassigned) sampling, then
the vectorized method. -/
def forward (ops : NumOps K) (ext : Ext K) (f : Arr2 K) (L : ℕ) (spin : ℤ)
    (sampling : String) (nside : Option ℕ) (L0 : ℤ) : Except String (FlmArr K) :=
  if ¬ ((f.rows, f.cols) = ext.f_shape L sampling nside) then
    .error "assert f.shape == samples.f_shape(L, sampling, nside) failed"
  else if ¬ (0 ≤ |spin| ∧ |spin| < (L : ℤ)) then
    .error "assert 0 <= np.abs(spin) < L failed"
  else if ¬ (L0 < (L : ℤ)) then .error "assert L0 < L failed"
  else
    let pre := forwardPreprocess ext f L spin sampling nside
    let weights := ext.quad_weights_transform L pre.1 0 nside
    .ok (_compute_forward_sov_fft_vectorized ops ext pre.2.1 L spin pre.1 pre.2.2
      weights nside L0)

/-! ### Shape and zero-padding facts for the vectorized methods -/

lemma foldl_arr2_dims {α : Type} (g : Arr2 K → α → Arr2 K)
    (h : ∀ a x, (g a x).rows = a.rows ∧ (g a x).cols = a.cols) :
    ∀ (xs : List α) (a0 : Arr2 K),
      (xs.foldl g a0).rows = a0.rows ∧ (xs.foldl g a0).cols = a0.cols := by
  intro xs
  induction xs with
  | nil => exact fun a0 => ⟨rfl, rfl⟩
  | cons x xs ih =>
    intro a0
    have h1 := h a0 x
    have h2 := ih (g a0 x)
    exact ⟨h2.1.trans h1.1, h2.2.trans h1.2⟩

lemma foldl_flm_dims {α : Type} (g : FlmArr K → α → FlmArr K)
    (h : ∀ a x, (g a x).rows = a.rows ∧ (g a x).cols = a.cols) :
    ∀ (xs : List α) (a0 : FlmArr K),
      (xs.foldl g a0).rows = a0.rows ∧ (xs.foldl g a0).cols = a0.cols := by
  intro xs
  induction xs with
  | nil => exact fun a0 => ⟨rfl, rfl⟩
  | cons x xs ih =>
    intro a0
    have h1 := h a0 x
    have h2 := ih (g a0 x)
    exact ⟨h2.1.trans h1.1, h2.2.trans h1.2⟩

lemma foldl_invariant {α β : Type} (P : β → Prop) (g : β → α → β)
    (h : ∀ b a, P b → P (g b a)) :
    ∀ (xs : List α) (b : β), P b → P (xs.foldl g b) := by
  intro xs
  induction xs with
  | nil => exact fun b hb => hb
  | cons x xs ih => exact fun b hb => ih (g b x) (h b x hb)

lemma forwardElStep_dims (ops : NumOps K) (ext : Ext K) (L : ℕ) (spin : ℤ)
    (m_offset : ℕ) (theta : K) (phase : ℤ → K) (wt : K) (ftmRow : ℕ → K)
    (acc2 : FlmArr K) (el : ℕ) :
    (forwardElStep ops ext L spin m_offset theta phase wt ftmRow acc2 el).rows = acc2.rows ∧
      (forwardElStep ops ext L spin m_offset theta phase wt ftmRow acc2 el).cols = acc2.cols :=
  ⟨rfl, rfl⟩

lemma forwardRingStep_dims (ops : NumOps K) (ext : Ext K) (L : ℕ) (spin : ℤ)
    (sampling : String) (thetas : List K) (weights : ℕ → K) (nside : Option ℕ)
    (ftm : Arr2 K) (m_offset elmin : ℕ) (acc : FlmArr K) (t : ℕ) :
    (forwardRingStep ops ext L spin sampling thetas weights nside ftm m_offset elmin acc t).rows
        = acc.rows ∧
      (forwardRingStep ops ext L spin sampling thetas weights nside ftm m_offset elmin acc t).cols
        = acc.cols :=
  foldl_flm_dims _ (fun a x => forwardElStep_dims ops ext L spin m_offset _ _ _ _ a x) _ acc

/-- The forward vectorized method returns an `[L, 2L-1]` array whose entries
at `|m| > el` are identically zero, provided the Wigner-d slice vanishes
there (the `turok` module is not under src/; by §3 the slice holds
`d^l_{m,spin}` with out-of-degree entries zero). -/
lemma _compute_forward_sov_fft_vectorized_shape_zero (ops : NumOps K) (ext : Ext K)
    (f : Arr2 K) (L : ℕ) (spin : ℤ) (sampling : String) (thetas : List K)
    (weights : ℕ → K) (nside : Option ℕ) (L0 : ℤ)
    (hslice : ∀ (theta : K) (el : ℕ) (m : ℤ), (el : ℤ) < |m| →
      ext.compute_slice theta el L (-spin) m = 0)
    (out : FlmArr K)
    (hout : out = _compute_forward_sov_fft_vectorized ops ext f L spin sampling thetas
      weights nside L0) :
    out.rows = L ∧ out.cols = 2 * L - 1 ∧
      ∀ (el : ℕ) (m : ℤ), (el : ℤ) < |m| → out.ent el m = 0 := by
  simp only [_compute_forward_sov_fft_vectorized] at hout
  subst hout
  have hdims := foldl_flm_dims (K := K)
    (forwardRingStep ops ext L spin sampling thetas weights nside
      (if pyLower sampling = "healpix" then ext.healpix_fft f L nside
        else ext.fftshift (ext.fft f))
      (if sampling = "mwss" ∨ sampling = "healpix" then 1 else 0) (max L0 |spin|).toNat)
    (fun a x => forwardRingStep_dims ops ext L spin sampling thetas weights nside _ _ _ a x)
    (List.range thetas.length) ⟨(flm_shape L).1, (flm_shape L).2, fun _ _ => 0⟩
  refine ⟨hdims.1, hdims.2, ?_⟩
  intro el m hm
  have hzero := foldl_invariant
    (fun (acc : FlmArr K) => ∀ (el : ℕ) (m : ℤ), (el : ℤ) < |m| → acc.ent el m = 0)
    (forwardRingStep ops ext L spin sampling thetas weights nside
      (if pyLower sampling = "healpix" then ext.healpix_fft f L nside
        else ext.fftshift (ext.fft f))
      (if sampling = "mwss" ∨ sampling = "healpix" then 1 else 0) (max L0 |spin|).toNat)
    (fun acc t hacc => by
      unfold forwardRingStep
      refine foldl_invariant
        (fun (acc : FlmArr K) => ∀ (el : ℕ) (m : ℤ), (el : ℤ) < |m| → acc.ent el m = 0)
        _ ?_ _ acc hacc
      intro b e hb el' m' hm'
      show (forwardElStep ops ext L spin _ _ _ _ _ b e).ent el' m' = 0
      unfold forwardElStep
      by_cases hc : el' = e ∧ -((L : ℤ) - 1) ≤ m' ∧ m' ≤ (L : ℤ) - 1
      · show (if el' = e ∧ _ ∧ _ then _ else _) = 0
        rw [if_pos hc, hb el' m' hm', hslice _ _ _ (by rw [← hc.1]; exact hm')]
        ring
      · show (if el' = e ∧ _ ∧ _ then _ else _) = 0
        rw [if_neg hc]
        exact hb el' m' hm')
    (List.range thetas.length) ⟨(flm_shape L).1, (flm_shape L).2, fun _ _ => 0⟩
    (fun _ _ _ => rfl)
  show (List.foldl (forwardRingStep ops ext L spin sampling thetas weights nside _ _ _) _ _).ent
      el m * (-1 : K) ^ spin = 0
  rw [hzero el m hm, zero_mul]

/-- The inverse vectorized method's result has the shape of the array the
final (HEALPix or uniform) inverse FFT produces from the `ftm_shape` grid. -/
lemma _compute_inverse_sov_fft_vectorized_shape (ops : NumOps K) (ext : Ext K)
    (flm : FlmArr K) (L : ℕ) (spin : ℤ) (sampling : String) (thetas : List K)
    (nside : Option ℕ) (L0 : ℤ)
    (hishift : ∀ a, (ext.ifftshift a).rows = a.rows ∧ (ext.ifftshift a).cols = a.cols)
    (hifft : ∀ a, (ext.ifft a).rows = a.rows ∧ (ext.ifft a).cols = a.cols)
    (hhp : pyLower sampling = "healpix" →
      ∀ a, ((ext.healpix_ifft a L nside).rows, (ext.healpix_ifft a L nside).cols)
        = ext.f_shape L sampling nside)
    (hftm : pyLower sampling ≠ "healpix" →
      ext.ftm_shape L sampling nside = ext.f_shape L sampling nside)
    (out : Arr2 K)
    (hout : out = _compute_inverse_sov_fft_vectorized ops ext flm L spin sampling thetas
      nside L0) :
    (out.rows, out.cols) = ext.f_shape L sampling nside := by
  simp only [_compute_inverse_sov_fft_vectorized] at hout
  have hring : ∀ (a : Arr2 K) (t : ℕ),
      (inverseRingStep ops ext flm L spin sampling thetas nside
          (if sampling = "mwss" ∨ sampling = "healpix" then 1 else 0)
          (max L0 |spin|).toNat a t).rows = a.rows ∧
        (inverseRingStep ops ext flm L spin sampling thetas nside
          (if sampling = "mwss" ∨ sampling = "healpix" then 1 else 0)
          (max L0 |spin|).toNat a t).cols = a.cols := by
    intro a t
    dsimp only [inverseRingStep]
    exact foldl_arr2_dims (inverseElStep ops ext flm L spin _ _ _ t)
      (fun b x => ⟨rfl, rfl⟩) _ a
  have hdims := foldl_arr2_dims (K := K)
    (inverseRingStep ops ext flm L spin sampling thetas nside
      (if sampling = "mwss" ∨ sampling = "healpix" then 1 else 0) (max L0 |spin|).toNat)
    hring (List.range thetas.length)
    ⟨(ext.ftm_shape L sampling nside).1, (ext.ftm_shape L sampling nside).2, fun _ _ => 0⟩
  by_cases hs : pyLower sampling = "healpix"
  · rw [if_pos hs] at hout
    rw [hout]
    exact hhp hs _
  · rw [if_neg hs] at hout
    rw [hout]
    rw [Prod.mk.injEq]
    refine ⟨?_, ?_⟩
    · rw [(hifft _).1, (hishift _).1]
      exact hdims.1.trans (congrArg Prod.fst (hftm hs))
    · rw [(hifft _).2, (hishift _).2]
      exact hdims.2.trans (congrArg Prod.snd (hftm hs))

end transform

namespace precompute_spherical

/-! ## `s2fft/precompute_transforms/spherical.py`

The wrappers `inverse`/`forward` (the reality/spin downgrade and the
numpy/jax/torch dispatch) and the numpy `forward_transform`.  Complex
numbers are modelled by a field with a star operation (`conj`); the modules
this file imports that are not under src/ (`resampling`, `healpix_ffts`,
`s2_samples`) and the numpy FFT routines are the collaborator record
`ExtP`.  The jax and torch transform bodies are parameters of the dispatch
wrappers (they are parallel backends of the same algorithm). -/

variable {K : Type} [Field K] [StarRing K]

/-- The collaborators of `spherical.py` that are not under src/. -/
structure ExtP (K : Type) where
  mw_to_mwss : Arr2 K → ℕ → ℤ → Arr2 K
  upsample_by_two_mwss : Arr2 K → ℕ → ℤ → Arr2 K
  healpix_fft : Arr2 K → ℕ → Option ℕ → Bool → Arr2 K
  rfft : Arr2 K → Arr2 K
  fft : Arr2 K → Arr2 K
  fftshift : Arr2 K → Arr2 K

/-- `np.real(f)`, expressed with the star operation:
`Re z = (z + conj z) / 2`. -/
def reArr (a : Arr2 K) : Arr2 K :=
  { a with ent := fun i j => (a.ent i j + star (a.ent i j)) / 2 }

/-- The `ftm` block of `forward_transform`: the (real or complex) azimuthal
FFT, narrowed by `m_offset` and — under `reality` — by `m_start_ind`.
Column `j` of the result is python column `j + m_offset (+ m_start_ind)` of
the full FFT output. -/
def forwardFtm (ext : ExtP K) (f2 : Arr2 K) (sampling2 : String) (L : ℕ)
    (reality : Bool) (nside : Option ℕ) (m_offset m_start_ind : ℕ) : Arr2 K :=
  if pyLower sampling2 = "healpix" then
    let h := ext.healpix_fft f2 L nside reality
    let drop := m_offset + (if reality then m_start_ind else 0)
    ⟨h.rows, h.cols - drop, fun t j => h.ent t (j + drop)⟩
  else
    if reality then
      let r := ext.rfft (reArr f2)
      if m_offset ≠ 0 then ⟨r.rows, r.cols - 1, r.ent⟩ else r
    else
      let r := ext.fftshift (ext.fft f2)
      ⟨r.rows, r.cols - m_offset, fun t j => r.ent t (j + m_offset)⟩

/-- `flm = zeros(flm_shape(L)); flm[:, m_start_ind:] = np.einsum("...tlm,
...tm -> ...lm", kernel, ftm)`.  Order `m` sits in python column
`m + L - 1`; the einsum's ring axis has length `ftm.rows`. -/
def forwardEinsum (kernel : ℕ → ℕ → ℕ → K) (ftm : Arr2 K) (L : ℕ)
    (m_start_ind : ℕ) : FlmArr K :=
  ⟨L, 2 * L - 1, fun l m =>
    if (m_start_ind : ℤ) - ((L : ℤ) - 1) ≤ m ∧ m ≤ (L : ℤ) - 1 then
      ∑ t ∈ Finset.range ftm.rows,
        kernel t l ((m + ((L : ℤ) - 1)).toNat - m_start_ind)
          * ftm.ent t ((m + ((L : ℤ) - 1)).toNat - m_start_ind)
    else 0⟩

/-- The `reality` reconstruction `flm[:, :m_start_ind] = np.flip((-1) **
(np.arange(1, L) % 2) * np.conj(flm[:, m_start_ind + 1:]), axis=-1)` (with
`m_start_ind = L - 1`): negative order `m` receives
`(-1)^(-m mod 2) * conj(flm[l, -m])`. -/
def forwardRecon (flm1 : FlmArr K) (L : ℕ) (reality : Bool) : FlmArr K :=
  if reality then
    { flm1 with
      ent := fun l m =>
        if m < 0 ∧ -((L : ℤ) - 1) ≤ m then
          (-1 : K) ^ ((-m).toNat % 2) * star (flm1.ent l (-m))
        else flm1.ent l m }
  else flm1

/-- The numpy `forward_transform(f, kernel, L, sampling, reality, spin,
nside)`: mw→mwss conversion and doubling for the equiangular schemes, the
narrowed azimuthal FFT, the kernel contraction, the conjugate-symmetry
reconstruction of the negative orders under `reality`, and the final
`(-1)^spin`. -/
def forward_transform (ext : ExtP K) (f : Arr2 K) (kernel : ℕ → ℕ → ℕ → K)
    (L : ℕ) (sampling : String) (reality : Bool) (spin : ℤ) (nside : Option ℕ) :
    FlmArr K :=
  let f1 := if pyLower sampling = "mw" then ext.mw_to_mwss f L spin else f
  let doubled := pyLower sampling = "mw" ∨ pyLower sampling = "mwss"
  let sampling2 := if doubled then "mwss" else sampling
  let f2 := if doubled then ext.upsample_by_two_mwss f1 L spin else f1
  let m_offset : ℕ := if sampling2 = "mwss" ∨ sampling2 = "healpix" then 1 else 0
  let m_start_ind : ℕ := if reality then L - 1 else 0
  let ftm := forwardFtm ext f2 sampling2 L reality nside m_offset m_start_ind
  let flm1 := forwardEinsum kernel ftm L m_start_ind
  let flm2 := forwardRecon flm1 L reality
  { flm2 with ent := fun l m => flm2.ent l m * (-1 : K) ^ spin }

/-- The warning text of the reality downgrade. -/
def realityWarn : String :=
  "Reality acceleration only supports spin 0 fields. Defering to complex transform."

/-- The `inverse` wrapper: reality/spin downgrade with a warning, then the
numpy/jax/torch dispatch; the three backend bodies are parameters. -/
def inverse (fnumpy fjax ftorch : FlmArr K → (ℕ → ℕ → ℕ → K) → ℕ → String → Bool → ℤ →
      Option ℕ → Arr2 K)
    (flm : FlmArr K) (L : ℕ) (spin : ℤ) (kernel : ℕ → ℕ → ℕ → K) (sampling : String)
    (reality : Bool) (method : String) (nside : Option ℕ) :
    Except String (List String × Arr2 K) :=
  let reality2 := if reality ∧ spin ≠ 0 then false else reality
  let warns := if reality ∧ spin ≠ 0 then [realityWarn] else []
  if method = "numpy" then .ok (warns, fnumpy flm kernel L sampling reality2 spin nside)
  else if method = "jax" then .ok (warns, fjax flm kernel L sampling reality2 spin nside)
  else if method = "torch" then .ok (warns, ftorch flm kernel L sampling reality2 spin nside)
  else .error ("Method " ++ method ++ " not recognised.")

/-- The `forward` wrapper: reality/spin downgrade with a warning, then the
numpy/jax/torch dispatch; the three backend bodies are parameters. -/
def forward (fnumpy fjax ftorch : Arr2 K → (ℕ → ℕ → ℕ → K) → ℕ → String → Bool → ℤ →
      Option ℕ → FlmArr K)
    (f : Arr2 K) (L : ℕ) (spin : ℤ) (kernel : ℕ → ℕ → ℕ → K) (sampling : String)
    (reality : Bool) (method : String) (nside : Option ℕ) :
    Except String (List String × FlmArr K) :=
  let reality2 := if reality ∧ spin ≠ 0 then false else reality
  let warns := if reality ∧ spin ≠ 0 then [realityWarn] else []
  if method = "numpy" then .ok (warns, fnumpy f kernel L sampling reality2 spin nside)
  else if method = "jax" then .ok (warns, fjax f kernel L sampling reality2 spin nside)
  else if method = "torch" then .ok (warns, ftorch f kernel L sampling reality2 spin nside)
  else .error ("Method " ++ method ++ " not recognised.")

/-! ### The conjugate-symmetry reconstruction -/

lemma reArr_real (a : Arr2 K) (i j : ℕ) :
    star ((reArr a).ent i j) = (reArr a).ent i j := by
  show star ((a.ent i j + star (a.ent i j)) / 2) = (a.ent i j + star (a.ent i j)) / 2
  rw [star_div₀, star_add, star_star, star_ofNat, add_comm]

lemma neg_one_pow_natMod {m : ℤ} (hm : 0 ≤ m) :
    (-1 : K) ^ (m.toNat % 2) = (-1 : K) ^ m := by
  have h : (-1 : K) ^ m = (-1 : K) ^ ((m.toNat : ℤ)) := by
    rw [Int.toNat_of_nonneg hm]
  rw [h, zpow_natCast]
  rcases Nat.even_or_odd m.toNat with he | ho
  · have h2 : m.toNat % 2 = 0 := Nat.even_iff.mp he
    rw [h2, pow_zero, he.neg_one_pow]
  · have h2 : m.toNat % 2 = 1 := Nat.odd_iff.mp ho
    rw [h2, pow_one, ho.neg_one_pow]

/-- The reconstructed coefficient array satisfies
`flm[l, -m] = (-1)^m conj(flm[l, m])` for `0 ≤ m ≤ L-1`, any row `l`: for
`m ≥ 1` the negative column is written as exactly that expression, and for
`m = 0` the entry is a sum of products of star-fixed factors. -/
lemma forwardRecon_symm (kernel : ℕ → ℕ → ℕ → K)
    (hker : ∀ t l c, star (kernel t l c) = kernel t l c)
    (ftm : Arr2 K) (hcol : ∀ t, star (ftm.ent t 0) = ftm.ent t 0)
    (L : ℕ) (hL : 1 ≤ L) (l : ℕ) (m : ℤ) (hm0 : 0 ≤ m) (hml : m ≤ (L : ℤ) - 1) :
    (forwardRecon (forwardEinsum kernel ftm L (L - 1)) L true).ent l (-m)
      = (-1 : K) ^ m
        * star ((forwardRecon (forwardEinsum kernel ftm L (L - 1)) L true).ent l m) := by
  unfold forwardRecon
  rw [if_pos rfl]
  rcases eq_or_lt_of_le hm0 with hm | hm
  · -- m = 0: the entry is real
    subst hm
    rw [neg_zero, zpow_zero, one_mul]
    dsimp only
    rw [if_neg (by omega : ¬ ((0 : ℤ) < 0 ∧ -((L : ℤ) - 1) ≤ (0 : ℤ)))]
    unfold forwardEinsum
    dsimp only
    rw [if_pos (by omega : ((L - 1 : ℕ) : ℤ) - ((L : ℤ) - 1) ≤ (0 : ℤ)
      ∧ (0 : ℤ) ≤ (L : ℤ) - 1)]
    have hc : ((0 : ℤ) + ((L : ℤ) - 1)).toNat - (L - 1) = 0 := by omega
    rw [hc, star_sum]
    refine Finset.sum_congr rfl ?_
    intro t _
    rw [star_mul, hker, hcol, mul_comm]
  · -- m ≥ 1: the negative column is the reconstruction formula
    dsimp only
    rw [if_pos (by omega : -m < 0 ∧ -((L : ℤ) - 1) ≤ -m),
      if_neg (by omega : ¬ (m < 0 ∧ -((L : ℤ) - 1) ≤ m)), neg_neg,
      neg_one_pow_natMod hm0]

end precompute_spherical

namespace construct

/-! ## `s2fft/general_precompute/construct.py`

`wigner_kernel` and `healpix_phase_shifts`.  The `samples`, `quadrature` and
`wigner.turok` modules it imports are not under src/ and are the
collaborator record `ExtC`. -/

variable {K : Type} [Field K]

/-- A numpy 4-d float array `[2N-1, n_thetas, L, 2L-1]`; the last axis is
indexed by the order `m` (python index `m + L - 1`). -/
structure Arr4 (K : Type) where
  d1 : ℕ
  d2 : ℕ
  d3 : ℕ
  d4 : ℕ
  ent : ℕ → ℕ → ℕ → ℤ → K

/-- The collaborators of `construct.py` that are not under src/. -/
structure ExtC (K : Type) where
  thetas : ℕ → String → Option ℕ → List K
  quad_weights_transform : ℕ → String → ℤ → Option ℕ → (ℕ → K)
  compute_slice : K → ℕ → ℕ → ℤ → Bool → (ℤ → K)
  ring_phase_shift_hp : ℕ → ℕ → Option ℕ → Bool → (ℤ → K)

/-- Write the whole `m`-row `dl[ni, t, el] = v`. -/
def set4 (d : Arr4 K) (ni t el : ℕ) (v : ℤ → K) : Arr4 K :=
  { d with ent := fun a b c m => if a = ni ∧ b = t ∧ c = el then v m else d.ent a b c m }

/-- `healpix_phase_shifts(L, nside, forward)`: row `t` is
`samples.ring_phase_shift_hp(L, t, nside, forward)` (shape
`[n_thetas, 2L-1]`); the loop writes each row once from the collaborator, so
it is a direct tabulation. -/
def healpix_phase_shifts (ext : ExtC K) (L : ℕ) (nside : Option ℕ) (forward : Bool) :
    ℕ → ℤ → K :=
  fun t m => ext.ring_phase_shift_hp L t nside forward m

/-- The `for el in range(abs(n), L)` loop of `wigner_kernel` at fixed
`(n, t)`: iteration `j` writes row `el = |n| + j`. -/
def wignerElLoop (ext : ExtC K) (theta : K) (L : ℕ) (n : ℤ) (reality : Bool)
    (ni t : ℕ) : ℕ → Arr4 K → Arr4 K
  | 0, d => d
  | j + 1, d =>
    let d' := wignerElLoop ext theta L n reality ni t j d
    set4 d' ni t (n.natAbs + j) (ext.compute_slice theta (n.natAbs + j) L n reality)

/-- The `for t, theta in enumerate(thetas)` loop at fixed `n`. -/
def wignerTLoop (ext : ExtC K) (thetas : List K) (L : ℕ) (n : ℤ) (reality : Bool)
    (ni : ℕ) : ℕ → Arr4 K → Arr4 K
  | 0, d => d
  | j + 1, d =>
    wignerElLoop ext (thetas.getD j 0) L n reality ni j (L - n.natAbs)
      (wignerTLoop ext thetas L n reality ni j d)

/-- The `for n in range(-N + 1, N)` loop; iteration `i` handles
`n = -(N-1) + i`, stored at first index `N - 1 + n = i`. -/
def wignerNLoop (ext : ExtC K) (thetas : List K) (L N : ℕ) (reality : Bool) :
    ℕ → Arr4 K → Arr4 K
  | 0, d => d
  | i + 1, d =>
    wignerTLoop ext thetas L (-(N : ℤ) + 1 + i) reality i thetas.length
      (wignerNLoop ext thetas L N reality i d)

/-- `wigner_kernel(L, N, reality, sampling, nside, forward)`: the doubled
grid for forward equiangular kernels, one Turok slice per
`(n, ring, degree)` stacked into a zero `[2N-1, n_rings, L, 2L-1]` array,
quadrature weighting and `2π/(2N-1)` on the forward side or
`(2l+1)/(8π²)` on the inverse side, and the HEALPix ring phases. -/
def wigner_kernel (ops : NumOps K) (ext : ExtC K) (L N : ℕ) (reality : Bool)
    (sampling : String) (nside : Option ℕ) (forward : Bool) : Arr4 K :=
  let doubled := forward ∧ (pyLower sampling = "mw" ∨ pyLower sampling = "mwss")
  let sampling2 := if doubled then "mwss" else sampling
  let thetas := if doubled then ext.thetas (2 * L) "mwss" none
    else ext.thetas L sampling nside
  let dl0 : Arr4 K := ⟨2 * N - 1, thetas.length, L, 2 * L - 1, fun _ _ _ _ => 0⟩
  let dl1 := wignerNLoop ext thetas L N reality (2 * N - 1) dl0
  let dl2 : Arr4 K :=
    if forward then
      { dl1 with
        ent := fun ni t el m =>
          dl1.ent ni t el m * ext.quad_weights_transform L sampling2 0 nside t
            * (2 * ops.pi / (2 * (N : K) - 1)) }
    else
      { dl1 with
        ent := fun ni t el m =>
          dl1.ent ni t el m * ((2 * (el : K) + 1) / (8 * ops.pi ^ 2)) }
  if pyLower sampling2 = "healpix" then
    { dl2 with
      ent := fun ni t el m => dl2.ent ni t el m * healpix_phase_shifts ext L nside forward t m }
  else dl2

lemma wignerElLoop_ent (ext : ExtC K) (theta : K) (L : ℕ) (n : ℤ) (reality : Bool)
    (ni t : ℕ) (j : ℕ) (d : Arr4 K) (a b c : ℕ) (m : ℤ) :
    (wignerElLoop ext theta L n reality ni t j d).ent a b c m =
      if a = ni ∧ b = t ∧ n.natAbs ≤ c ∧ c < n.natAbs + j then
        ext.compute_slice theta c L n reality m
      else d.ent a b c m := by
  induction j generalizing a b c m with
  | zero =>
    simp only [wignerElLoop]
    rw [if_neg (by omega)]
  | succ j ih =>
    simp only [wignerElLoop, set4]
    show (if a = ni ∧ b = t ∧ c = n.natAbs + j then _ else _) = _
    by_cases hc : a = ni ∧ b = t ∧ c = n.natAbs + j
    · rw [if_pos hc, if_pos (by omega)]
      rw [hc.2.2]
    · rw [if_neg hc, ih]
      have hiff : (a = ni ∧ b = t ∧ n.natAbs ≤ c ∧ c < n.natAbs + j) ↔
          (a = ni ∧ b = t ∧ n.natAbs ≤ c ∧ c < n.natAbs + (j + 1)) := by
        constructor
        · rintro ⟨u1, u2, u3, u4⟩
          exact ⟨u1, u2, u3, by omega⟩
        · rintro ⟨u1, u2, u3, u4⟩
          refine ⟨u1, u2, u3, ?_⟩
          rcases Nat.lt_or_ge c (n.natAbs + j) with h | h
          · exact h
          · exact absurd ⟨u1, u2, by omega⟩ hc
      rw [if_congr hiff rfl rfl]

lemma wignerTLoop_ent (ext : ExtC K) (thetas : List K) (L : ℕ) (n : ℤ)
    (reality : Bool) (ni : ℕ) (j : ℕ) (d : Arr4 K) (a b c : ℕ) (m : ℤ) :
    (wignerTLoop ext thetas L n reality ni j d).ent a b c m =
      if a = ni ∧ b < j ∧ n.natAbs ≤ c ∧ c < L then
        ext.compute_slice (thetas.getD b 0) c L n reality m
      else d.ent a b c m := by
  induction j generalizing a b c m with
  | zero =>
    simp only [wignerTLoop]
    rw [if_neg (by omega)]
  | succ j ih =>
    simp only [wignerTLoop]
    rw [wignerElLoop_ent]
    by_cases hb : a = ni ∧ b = j ∧ n.natAbs ≤ c ∧ c < n.natAbs + (L - n.natAbs)
    · rw [if_pos hb, if_pos (by omega), hb.2.1]
    · rw [if_neg hb, ih]
      have hiff : (a = ni ∧ b < j ∧ n.natAbs ≤ c ∧ c < L) ↔
          (a = ni ∧ b < j + 1 ∧ n.natAbs ≤ c ∧ c < L) := by
        constructor
        · rintro ⟨u1, u2, u3, u4⟩
          exact ⟨u1, by omega, u3, u4⟩
        · rintro ⟨u1, u2, u3, u4⟩
          refine ⟨u1, ?_, u3, u4⟩
          rcases Nat.lt_or_ge b j with h | h
          · exact h
          · exact absurd ⟨u1, by omega, u3, by omega⟩ hb
      rw [if_congr hiff rfl rfl]

lemma wignerNLoop_ent (ext : ExtC K) (thetas : List K) (L N : ℕ) (reality : Bool)
    (i : ℕ) (d : Arr4 K) (a b c : ℕ) (m : ℤ) :
    (wignerNLoop ext thetas L N reality i d).ent a b c m =
      if a < i ∧ b < thetas.length ∧ (-(N : ℤ) + 1 + a).natAbs ≤ c ∧ c < L then
        ext.compute_slice (thetas.getD b 0) c L (-(N : ℤ) + 1 + a) reality m
      else d.ent a b c m := by
  induction i generalizing a b c m with
  | zero =>
    simp only [wignerNLoop]
    rw [if_neg (by omega)]
  | succ i ih =>
    simp only [wignerNLoop]
    rw [wignerTLoop_ent]
    by_cases ha : a = i
    · subst ha
      by_cases hr : b < thetas.length ∧ (-(N : ℤ) + 1 + a).natAbs ≤ c ∧ c < L
      · rw [if_pos ⟨rfl, hr⟩, if_pos ⟨by omega, hr⟩]
      · rw [if_neg (by tauto), ih, if_neg (by omega), if_neg (by tauto)]
    · rw [if_neg (by tauto), ih]
      have hiff : (a < i ∧ b < thetas.length ∧ (-(N : ℤ) + 1 + a).natAbs ≤ c ∧ c < L) ↔
          (a < i + 1 ∧ b < thetas.length ∧ (-(N : ℤ) + 1 + a).natAbs ≤ c ∧ c < L) := by
        constructor
        · rintro ⟨u1, u⟩
          exact ⟨by omega, u⟩
        · rintro ⟨u1, u⟩
          exact ⟨by omega, u⟩
      rw [if_congr hiff rfl rfl]

lemma wignerElLoop_dims (ext : ExtC K) (theta : K) (L : ℕ) (n : ℤ) (reality : Bool)
    (ni t : ℕ) (j : ℕ) (d : Arr4 K) :
    (wignerElLoop ext theta L n reality ni t j d).d1 = d.d1 ∧
      (wignerElLoop ext theta L n reality ni t j d).d2 = d.d2 ∧
      (wignerElLoop ext theta L n reality ni t j d).d3 = d.d3 ∧
      (wignerElLoop ext theta L n reality ni t j d).d4 = d.d4 := by
  induction j with
  | zero => exact ⟨rfl, rfl, rfl, rfl⟩
  | succ j ih => exact ih

lemma wignerTLoop_dims (ext : ExtC K) (thetas : List K) (L : ℕ) (n : ℤ)
    (reality : Bool) (ni : ℕ) (j : ℕ) (d : Arr4 K) :
    (wignerTLoop ext thetas L n reality ni j d).d1 = d.d1 ∧
      (wignerTLoop ext thetas L n reality ni j d).d2 = d.d2 ∧
      (wignerTLoop ext thetas L n reality ni j d).d3 = d.d3 ∧
      (wignerTLoop ext thetas L n reality ni j d).d4 = d.d4 := by
  induction j with
  | zero => exact ⟨rfl, rfl, rfl, rfl⟩
  | succ j ih =>
    have h := wignerElLoop_dims ext (thetas.getD j 0) L n reality ni j (L - n.natAbs)
      (wignerTLoop ext thetas L n reality ni j d)
    exact ⟨h.1.trans ih.1, h.2.1.trans ih.2.1, h.2.2.1.trans ih.2.2.1,
      h.2.2.2.trans ih.2.2.2⟩

lemma wignerNLoop_dims (ext : ExtC K) (thetas : List K) (L N : ℕ) (reality : Bool)
    (i : ℕ) (d : Arr4 K) :
    (wignerNLoop ext thetas L N reality i d).d1 = d.d1 ∧
      (wignerNLoop ext thetas L N reality i d).d2 = d.d2 ∧
      (wignerNLoop ext thetas L N reality i d).d3 = d.d3 ∧
      (wignerNLoop ext thetas L N reality i d).d4 = d.d4 := by
  induction i with
  | zero => exact ⟨rfl, rfl, rfl, rfl⟩
  | succ i ih =>
    have h := wignerTLoop_dims ext thetas L (-(N : ℤ) + 1 + i) reality i thetas.length
      (wignerNLoop ext thetas L N reality i d)
    exact ⟨h.1.trans ih.1, h.2.1.trans ih.2.1, h.2.2.1.trans ih.2.2.1,
      h.2.2.2.trans ih.2.2.2⟩

end construct

namespace price_mcewen

/-! ## `s2fft/wigner/price_mcewen.py`

`generate_precomputes` and `compute_all_slices`.  The only collaborator not
under src/ is `samples.thetas`, abstracted by `ExtPM`.  All arrays here are
float arrays, so the scalar field carries a linear order (for `np.abs`).

`compute_all_slices` mutates its inputs in place: line 341
(`lamb[i, :, np.arange(L)] += cs`) and line 361
(`lrenorm[i] = np.where(index, lrenorm[i] + lbig, lrenorm[i])`) write through
views of the caller's precompute arrays.  The embedding therefore returns the
final contents of `lamb` and `lrenorm` alongside the returned `dl_test`, in
`SlState`. -/

variable {K : Type} [LinearOrderedField K]

/-- The collaborator of `price_mcewen.py` that is not under src/. -/
structure ExtPM (K : Type) where
  thetas : ℕ → String → Option ℕ → List K

/-- A dynamically-typed Python argument: the values that reach
`generate_precomputes` from its call sites are integers, strings, or float
arrays. -/
inductive PyVal (K : Type) where
  | int (n : ℤ)
  | str (s : String)
  | arr (a : List K)

/-- Modelled from the spec: `samples.thetas(L, sampling, nside)` takes an
integer band-limit and a string sampling scheme (it lowercases the scheme
string to dispatch on it), so a call binding an array to `L` and an integer
to `sampling` raises a `TypeError` instead of returning angles. -/
def thetasPy (ext : ExtPM K) : PyVal K → PyVal K → Option ℕ → Except String (List K)
  | PyVal.int L, PyVal.str sampling, nside => Except.ok (ext.thetas L.toNat sampling nside)
  | _, _, _ =>
    Except.error "TypeError: thetas requires an integer band-limit and a string sampling scheme"

/-- The bundle returned by `generate_precomputes`:
`[lrenorm, lamb, vsign, cpi, cp2, cs, indices]`.  `lrenorm` and `lamb` have
shape `(2, ntheta, L)`; `vsign` has shape `(2L-1, L)`; `cpi` and `cp2` have
shape `(L+1, L)`; `cs` has shape `(ntheta,)`; `indices` has shape
`(ntheta, L)`. -/
structure Precomps (K : Type) where
  lrenorm : ℕ → ℕ → ℕ → K
  lamb : ℕ → ℕ → ℕ → K
  vsign : ℕ → ℕ → K
  cpi : ℕ → ℕ → K
  cp2 : ℕ → ℕ → K
  cs : ℕ → K
  indices : ℕ → ℕ → ℕ

/-- Python wraparound indexing for an axis of length `n`. -/
def pyIdx (n : ℕ) (i : ℤ) : ℕ := (if i < 0 then i + n else i).toNat

/-- Rows `0 .. L+|mm|` of `log_first_row` (lines 76-83): row `0` is the
`einsum` initialisation `2 el log|cos(beta/2)|`; the loop over
`i in range(2, L + abs(mm) + 2)` adds `log((2 el + 2 - i)/(i - 1))/2 + lt`
to the previous row, writing row `i - 1`. -/
def lfrBase (ops : NumOps K) (lt c2 : ℕ → K) : ℕ → ℕ → ℕ → K
  | 0, j, k => 2 * (k : K) * ops.log |c2 j|
  | r + 1, j, k =>
    lfrBase ops lt c2 r j k
      + ops.log ((2 * (k : K) + 2 - ((r : K) + 2)) / ((r : K) + 1)) / 2 + lt j

/-- Body of `generate_precomputes` (lines 55-114), after `beta` has been
computed.  `mm = -spin`.  `log_first_row` rows beyond `L + |mm|` are never
written and stay zero; `lrenorm` reads row `half_slices[i] - 1` with Python
negative-index wraparound.  The `np.roll` of the `cpi`/`cp2` columns is the
index shift `rollIdx`. -/
def generate_precomputes_body (ops : NumOps K) (L : ℕ) (mm : ℤ) (beta : List K) :
    Precomps K :=
  let bet : ℕ → K := fun j => beta.getD j 0
  let c : ℕ → K := fun j => ops.cos (bet j)
  let s : ℕ → K := fun j => ops.sin (bet j)
  let cs : ℕ → K := fun j => c j / s j
  let t : ℕ → K := fun j => ops.tan (-(bet j) / 2)
  let lt : ℕ → K := fun j => ops.log |t j|
  let c2 : ℕ → K := fun j => ops.cos (bet j / 2)
  let omc : ℕ → K := fun j => 1 - c j
  let half_slices : ℕ → ℕ → ℤ := fun i k =>
    if i = 0 then (k : ℤ) + mm + 1 else (k : ℤ) - mm + 1
  let log_first_row : ℕ → ℕ → ℕ → K := fun r j k =>
    if r ≤ L + mm.natAbs then lfrBase ops lt c2 r j k else 0
  let cpi0 : ℕ → ℕ → K := fun r k =>
    if r = 0 then 2 / ops.sqrt (2 * (k : K))
    else if r + 1 ≤ L then
      2 / ops.sqrt (((r : K) + 1) * (2 * (k : K) + 1 - ((r : K) + 1)))
    else 0
  let cp20 : ℕ → ℕ → K := fun r k =>
    if 1 ≤ r ∧ r + 1 ≤ L then cpi0 r k / cpi0 (r - 1) k else 0
  let rollIdx : ℕ → ℕ → ℕ := fun k r =>
    (((r : ℤ) - ((L : ℤ) - 1 - k)) % ((L : ℤ) + 1)).toNat
  let msign : ℕ → K := fun m => if m < L - 1 then (-1 : K) ^ m else 1
  let lsign : ℕ → K := fun k => (-1 : K) ^ (mm + k).natAbs
  ⟨fun i j k => log_first_row (pyIdx (2 * L + 1) (half_slices i k - 1)) j k,
   fun i j k =>
     (((k : K) + 1) * omc j - ((half_slices i k : ℤ) : K) + c j) / s j
       - ((L : K) - (k : K) - 1) * cs j,
   fun m k =>
     (if m < L - 1 then (-1 : K) ^ (mm + 1 + L).natAbs else 1) * (msign m * lsign k),
   fun r k => if k < L then cpi0 (rollIdx k r) k else cpi0 r k,
   fun r k => if k < L then cp20 (rollIdx k r) k else cp20 r k,
   cs,
   fun _ k => k⟩

/-- `generate_precomputes(L, spin, sampling, nside, forward)` (lines 15-114)
for well-typed arguments: `mm = -spin`; for a forward equiangular call the
angles are `thetas(2L, "mwss")[1:-1]`, otherwise `thetas(L, sampling, nside)`. -/
def generate_precomputes (ops : NumOps K) (ext : ExtPM K) (L : ℕ) (spin : ℤ)
    (sampling : String) (nside : Option ℕ) (forward : Bool) : Precomps K :=
  let mm := -spin
  let beta :=
    if forward ∧ (pyLower sampling = "mw" ∨ pyLower sampling = "mwss") then
      ((ext.thetas (2 * L) "mwss" none).drop 1).dropLast
    else ext.thetas L sampling nside
  generate_precomputes_body ops L mm beta

/-- `generate_precomputes` as called with dynamically-typed arguments.  The
body negates `spin` (an integer is required), short-circuits
`forward and sampling.lower() in [...]` (so `sampling.lower()` is only
evaluated when `forward` is true), and passes `L` and `sampling` on to
`samples.thetas`; `np.arange(L)` additionally requires an integer `L`. -/
def generate_precomputesPy (ops : NumOps K) (ext : ExtPM K)
    (Lv spinv samplingv : PyVal K) (nside : Option ℕ) (forward : Bool) :
    Except String (Precomps K) :=
  match spinv with
  | PyVal.int spin =>
    match forward, samplingv with
    | true, PyVal.str sampling =>
      if pyLower sampling = "mw" ∨ pyLower sampling = "mwss" then
        match Lv with
        | PyVal.int L =>
          Except.ok (generate_precomputes_body ops L.toNat (-spin)
            (((ext.thetas (2 * L.toNat) "mwss" none).drop 1).dropLast))
        | _ => Except.error "TypeError: the band-limit must be an integer"
      else
        match thetasPy ext Lv samplingv nside, Lv with
        | Except.ok beta, PyVal.int L =>
          Except.ok (generate_precomputes_body ops L.toNat (-spin) beta)
        | Except.error e, _ => Except.error e
        | Except.ok _, _ => Except.error "TypeError: the band-limit must be an integer"
    | true, _ =>
      Except.error "AttributeError: the sampling argument does not support lowercasing"
    | false, _ =>
      match thetasPy ext Lv samplingv nside, Lv with
      | Except.ok beta, PyVal.int L =>
        Except.ok (generate_precomputes_body ops L.toNat (-spin) beta)
      | Except.error e, _ => Except.error e
      | Except.ok _, _ => Except.error "TypeError: the band-limit must be an integer"
  | _ => Except.error "TypeError: bad operand type for unary minus"

/-- The mutable arrays of `compute_all_slices` (lines 306-363): the result
`dl_test`, the loop iterants `dl_iter` (first index in `{0, 1}`) and
`dl_entry`, and the caller's precompute arrays `lamb` and `lrenorm`, which
the function writes through. -/
structure SlState (K : Type) where
  dl_test : ℕ → ℕ → ℕ → K
  dl_iter : ℕ → ℕ → ℕ → K
  dl_entry : ℕ → ℕ → K
  lamb : ℕ → ℕ → ℕ → K
  lrenorm : ℕ → ℕ → ℕ → K

/-- One iteration of `for m in range(2, L)` (lines 339-361) at outer index
`i` with `sind = lims[i]`, `sgn = (-1)^i`: `lamb[i] += cs` (broadcast over
the degree axis), the recursion entry, the forced `1` in column `-(m+1)`,
the masked write into row `sind + sgn m` of `dl_test` (with Python row
wraparound), and the renormalisation of `dl_iter` and `lrenorm[i]`. -/
def innerStep (ops : NumOps K) (p : Precomps K) (L : ℕ) (i : ℕ) (sind sgn : ℤ)
    (m : ℕ) (st : SlState K) : SlState K :=
  let lamb1 : ℕ → ℕ → ℕ → K := fun a j k =>
    if a = i then st.lamb a j k + p.cs j else st.lamb a j k
  let dl_entry1 : ℕ → ℕ → K := fun j k =>
    if L - m - 1 ≤ p.indices j k then
      p.cpi (m - 1) k * (st.dl_iter 1 j k * lamb1 i j k)
        - p.cp2 (m - 1) k * st.dl_iter 0 j k
    else st.dl_entry j k
  let dl_entry2 : ℕ → ℕ → K := fun j k => if k = L - (m + 1) then 1 else dl_entry1 j k
  let row := pyIdx (2 * L - 1) (sind + sgn * m)
  let dl_test1 : ℕ → ℕ → ℕ → K := fun r j k =>
    if r = row ∧ L - m - 1 ≤ p.indices j k then
      dl_entry2 j k * p.vsign row k * ops.exp (st.lrenorm i j k)
    else st.dl_test r j k
  let bigi : ℕ → ℕ → K := fun j k => 1 / |dl_entry2 j k|
  let lbig : ℕ → ℕ → K := fun j k => ops.log |dl_entry2 j k|
  let dl_iter1 : ℕ → ℕ → ℕ → K := fun a j k =>
    if a = 0 then
      (if L - m - 1 ≤ p.indices j k then bigi j k * st.dl_iter 1 j k
       else st.dl_iter 0 j k)
    else if a = 1 then
      (if L - m - 1 ≤ p.indices j k then bigi j k * dl_entry2 j k
       else st.dl_iter 1 j k)
    else st.dl_iter a j k
  let lrenorm1 : ℕ → ℕ → ℕ → K := fun a j k =>
    if a = i ∧ L - m - 1 ≤ p.indices j k then st.lrenorm a j k + lbig j k
    else st.lrenorm a j k
  ⟨dl_test1, dl_iter1, dl_entry2, lamb1, lrenorm1⟩

/-- Fueled `for m in range(2, L)` loop. -/
def innerLoop (ops : NumOps K) (p : Precomps K) (L : ℕ) (i : ℕ) (sind sgn : ℤ) :
    ℕ → ℕ → SlState K → SlState K
  | 0, _, st => st
  | fuel + 1, m, st =>
    innerLoop ops p L i sind sgn fuel (m + 1) (innerStep ops p L i sind sgn m st)

/-- One iteration of `for i in range(2)` (lines 317-361): fresh `dl_iter`
of ones, the seeded row pair `sind`, `sind + sgn`, a fresh zero `dl_entry`,
then the `m` recursion. -/
def outerIter (ops : NumOps K) (p : Precomps K) (L : ℕ) (i : ℕ) (st0 : SlState K) :
    SlState K :=
  let lind := L - 1
  let sind : ℤ := if i = 0 then 0 else -1
  let sgn : ℤ := (-1) ^ i
  let dl_iterA : ℕ → ℕ → ℕ → K := fun _ _ _ => 1
  let dl_iterB : ℕ → ℕ → ℕ → K := fun a j k =>
    if a = 1 ∧ lind ≤ k then p.cpi 0 k * (dl_iterA 0 j k * st0.lamb i j k)
    else dl_iterA a j k
  let row0 := pyIdx (2 * L - 1) sind
  let dl_test1 : ℕ → ℕ → ℕ → K := fun r j k =>
    if r = row0 ∧ lind ≤ k then
      dl_iterB 0 j k * p.vsign row0 k * ops.exp (st0.lrenorm i j k)
    else st0.dl_test r j k
  let row1 := pyIdx (2 * L - 1) (sind + sgn)
  let dl_test2 : ℕ → ℕ → ℕ → K := fun r j k =>
    if r = row1 ∧ lind - 1 ≤ k then
      dl_iterB 1 j k * p.vsign row1 k * ops.exp (st0.lrenorm i j k)
    else dl_test1 r j k
  innerLoop ops p L i sind sgn (L - 2) 2
    ⟨dl_test2, dl_iterB, fun _ _ => 0, st0.lamb, st0.lrenorm⟩

/-- The two outer iterations of `compute_all_slices` on a supplied
precompute bundle; the initial `dl_test` is the zero array of shape
`(2L-1, ntheta, L)` and `lamb`, `lrenorm` start as the caller's arrays. -/
def compute_all_slicesCore (ops : NumOps K) (p : Precomps K) (L : ℕ) : SlState K :=
  let st0 : SlState K :=
    ⟨fun _ _ _ => 0, fun _ _ _ => 1, fun _ _ => 0, p.lamb, p.lrenorm⟩
  outerIter ops p L 1 (outerIter ops p L 0 st0)

/-- `compute_all_slices(beta, L, spin, precomps)` (lines 269-363).  With
`precomps=None`, line 313 calls `generate_precomputes(beta, L, mm)`
positionally, binding `beta` to the band-limit parameter, `L` to the spin
parameter and `mm` to the sampling parameter. -/
def compute_all_slices (ops : NumOps K) (ext : ExtPM K) (beta : List K) (L : ℕ)
    (spin : ℤ) (precomps : Option (Precomps K)) : Except String (SlState K) :=
  let mm := -spin
  match precomps with
  | none =>
    (generate_precomputesPy ops ext (PyVal.arr beta) (PyVal.int L) (PyVal.int mm)
        none false).map (fun p => compute_all_slicesCore ops p L)
  | some p => Except.ok (compute_all_slicesCore ops p L)

end price_mcewen

namespace jax_transforms

/-! ## `s2fft/jax_transforms/wigner.py`

`inverse_numpy` (lines 93-173).  The `samples` and `spin_spherical` modules
it uses are not under src/ and form the collaborator record `ExtW`; `A` is
the type of a single sphere-sampled signal (one slot of the leading
`2N-1`-length gamma axis of `f`), and `P` the type of one per-order
precompute bundle.

Line 146 assigns `flmn[:, L_lower:] = einsum(...)`, writing the quadrature
scaling into the caller's coefficient array in place, so the embedding
returns the final contents of `flmn` alongside `f`. -/

variable {K A P : Type} [Field K] [SMul K A]

/-- The `[2N-1, L, 2L-1]` Wigner coefficient array; `ent n l m` is the
python entry `flmn[n, l, m + L - 1]`. -/
structure FlmnArr (K : Type) where
  d1 : ℕ
  d2 : ℕ
  d3 : ℕ
  ent : ℕ → ℕ → ℤ → K

/-- The collaborators of `jax_transforms/wigner.py` that are not under src/:
the zero signal of shape `samples.f_shape(L, N, sampling, nside)` (one
gamma slot), `spin_spherical.inverse_numpy`, and the numpy FFTs along the
gamma axis (`axis=-2` for HEALPix pixel arrays, `axis=-3` otherwise — the
leading axis of `f` in both layouts) with `norm="forward"`. -/
structure ExtW (K A P : Type) where
  zeroSignal : ℕ → ℕ → String → Option ℕ → A
  inverse_numpy : (ℕ → ℤ → K) → ℕ → ℤ → Option ℕ → String → Bool → P → ℕ → A
  irfft : (ℕ → A) → ℕ → (ℕ → A)
  ifft : (ℕ → A) → (ℕ → A)
  ifftshift : (ℕ → A) → (ℕ → A)

/-- The `for n in range(n_start_ind, N)` loop (lines 153-163): row
`N - 1 + n` of `fban` is `(-1)^n` times the spin-`(-n)` inverse spherical
transform of `flmn[N - 1 + n]`, with reality passed through only at
`n = 0` and precompute slot `n - n_start_ind`. -/
def inverseRowLoop (ext : ExtW K A P) (flmn : FlmnArr K) (L N : ℕ)
    (nside : Option ℕ) (sampling : String) (reality : Bool) (precomps : ℕ → P)
    (L_lower : ℕ) (n_start_ind : ℤ) : ℕ → ℤ → (ℕ → A) → (ℕ → A)
  | 0, _, fb => fb
  | fuel + 1, n, fb =>
    let row := ((N : ℤ) - 1 + n).toNat
    let fb1 : ℕ → A := fun r =>
      if r = row then
        ((-1 : K) ^ n) • ext.inverse_numpy (fun l m => flmn.ent row l m) L (-n) nside
          sampling (if n = 0 then reality else false) (precomps (n - n_start_ind).toNat)
          L_lower
      else fb r
    inverseRowLoop ext flmn L N nside sampling reality precomps L_lower n_start_ind
      fuel (n + 1) fb1

/-- `inverse_numpy(flmn, L, N, nside, sampling, reality, precomps, L_lower)`
(lines 93-173).  Returns the signal `f` (as its family of gamma slots)
together with the final contents of the caller's `flmn` buffer, which line
146 overwrites with the `sqrt((2l+1)/(16 pi^3))`-scaled coefficients for
all degrees `l >= L_lower`. -/
def inverse_numpy (ops : NumOps K) (ext : ExtW K A P) (flmn : FlmnArr K)
    (L N : ℕ) (nside : Option ℕ) (sampling : String) (reality : Bool)
    (precomps : ℕ → P) (L_lower : ℕ) : (ℕ → A) × FlmnArr K :=
  let fban : ℕ → A := fun _ => ext.zeroSignal L N sampling nside
  let flmn1 : FlmnArr K :=
    { flmn with
      ent := fun n l m =>
        if L_lower ≤ l then
          flmn.ent n l m * ops.sqrt ((2 * (l : K) + 1) / (16 * ops.pi ^ 3))
        else flmn.ent n l m }
  let n_start_ind : ℤ := if reality then 0 else -(N : ℤ) + 1
  let fban1 := inverseRowLoop ext flmn1 L N nside sampling reality precomps L_lower
    n_start_ind ((N : ℤ) - n_start_ind).toNat n_start_ind fban
  let f : ℕ → A :=
    if reality then ext.irfft (fun r => fban1 (N - 1 + r)) (2 * N - 1)
    else ext.ifft (ext.ifftshift fban1)
  (f, flmn1)

end jax_transforms

/-! ## Claims C3 and C7 -/

/-- **C3.**  For every real-valued input signal with spin 0 and valid
`(L, scheme)`, the precompute forward transform with reality enabled
computes only non-negative orders explicitly (the einsum fills columns
`m ≥ 0` only) and reconstructs every negative order by conjugate symmetry,
so the returned `flm` satisfies `flm[l, -m] = (-1)^m conj(flm[l, m])` for
all `0 ≤ l < L`, `0 ≤ m ≤ l`.  The hypotheses record the real-valuedness of
the kernel (§3) and the zero-frequency realness of the external FFT
adapters (`np.fft.rfft` on a real input, and the HEALPix FFT adapter's
central column on a real input), which are not under src/. -/
theorem C3_forward_reality_conjugate_symmetry {K : Type} [Field K] [StarRing K]
    (ext : precompute_spherical.ExtP K) (f : Arr2 K) (kernel : ℕ → ℕ → ℕ → K)
    (L : ℕ) (sampling : String) (nside : Option ℕ)
    (hL : 1 ≤ L)
    (hs : sampling = "mw" ∨ sampling = "mwss" ∨ sampling = "dh" ∨ sampling = "gl"
      ∨ sampling = "healpix")
    (hf : ∀ i j, star (f.ent i j) = f.ent i j)
    (hker : ∀ t l c, star (kernel t l c) = kernel t l c)
    (hrfft : ∀ a : Arr2 K, (∀ i j, star (a.ent i j) = a.ent i j) →
      ∀ t, star ((ext.rfft a).ent t 0) = (ext.rfft a).ent t 0)
    (hhp : ∀ a : Arr2 K, (∀ i j, star (a.ent i j) = a.ent i j) →
      ∀ t, star ((ext.healpix_fft a L nside true).ent t L)
        = (ext.healpix_fft a L nside true).ent t L) :
    ∀ (l : ℕ) (m : ℤ), l < L → 0 ≤ m → m ≤ (l : ℤ) →
      (precompute_spherical.forward_transform ext f kernel L sampling true 0 nside).ent l (-m)
        = (-1 : K) ^ m *
          star ((precompute_spherical.forward_transform ext f kernel L sampling true 0
            nside).ent l m) := by
  intro l m hl hm0 hml
  have hmL : m ≤ (L : ℤ) - 1 := by
    have : (l : ℤ) < (L : ℤ) := by exact_mod_cast hl
    omega
  unfold precompute_spherical.forward_transform
  dsimp only
  simp only [zpow_zero, mul_one]
  rcases hs with h | h | h | h | h <;> subst h
  · -- "mw"
    refine precompute_spherical.forwardRecon_symm kernel hker _ ?_ L hL l m hm0 hmL
    intro t
    show star ((ext.rfft (precompute_spherical.reArr
        (ext.upsample_by_two_mwss (ext.mw_to_mwss f L 0) L 0))).ent t 0) = _
    exact hrfft _ (precompute_spherical.reArr_real _) t
  · -- "mwss"
    refine precompute_spherical.forwardRecon_symm kernel hker _ ?_ L hL l m hm0 hmL
    intro t
    show star ((ext.rfft (precompute_spherical.reArr
        (ext.upsample_by_two_mwss f L 0))).ent t 0) = _
    exact hrfft _ (precompute_spherical.reArr_real _) t
  · -- "dh"
    refine precompute_spherical.forwardRecon_symm kernel hker _ ?_ L hL l m hm0 hmL
    intro t
    show star ((ext.rfft (precompute_spherical.reArr f)).ent t 0) = _
    exact hrfft _ (precompute_spherical.reArr_real _) t
  · -- "gl"
    refine precompute_spherical.forwardRecon_symm kernel hker _ ?_ L hL l m hm0 hmL
    intro t
    show star ((ext.rfft (precompute_spherical.reArr f)).ent t 0) = _
    exact hrfft _ (precompute_spherical.reArr_real _) t
  · -- "healpix"
    refine precompute_spherical.forwardRecon_symm kernel hker _ ?_ L hL l m hm0 hmL
    intro t
    show star ((ext.healpix_fft f L nside true).ent t (0 + (1 + (L - 1))))
      = (ext.healpix_fft f L nside true).ent t (0 + (1 + (L - 1)))
    have hdrop : 0 + (1 + (L - 1)) = L := by omega
    rw [hdrop]
    exact hhp f hf t

/-- Stub collaborators for `spherical.py` statements over `ℚ`. -/
def extPQ : precompute_spherical.ExtP ℚ where
  mw_to_mwss := fun a _ _ => a
  upsample_by_two_mwss := fun a _ _ => a
  healpix_fft := fun a _ _ _ => a
  rfft := id
  fft := id
  fftshift := id

/-- Witness for C3: the symmetry at `K = ℚ` (star = id), `L = 1`,
`l = m = 0`, scheme `"dh"`, zero signal and kernel. -/
theorem C3_witness :
    ((0 : ℕ) < 1 ∧ (0 : ℤ) ≤ 0) ∧
      (precompute_spherical.forward_transform extPQ ⟨1, 1, fun _ _ => 0⟩
          (fun _ _ _ => 0) 1 "dh" true 0 none).ent 0 (-0)
        = (-1 : ℚ) ^ (0 : ℤ) *
          star ((precompute_spherical.forward_transform extPQ ⟨1, 1, fun _ _ => 0⟩
            (fun _ _ _ => 0) 1 "dh" true 0 none).ent 0 0) :=
  ⟨⟨by norm_num, le_refl 0⟩,
    C3_forward_reality_conjugate_symmetry extPQ ⟨1, 1, fun _ _ => 0⟩ (fun _ _ _ => 0)
      1 "dh" none (le_refl 1) (Or.inr (Or.inr (Or.inl rfl)))
      (fun _ _ => rfl) (fun _ _ _ => rfl)
      (fun a ha t => by
        show star (a.ent t 0) = a.ent t 0
        exact ha t 0)
      (fun a ha t => by
        show star (a.ent t 1) = a.ent t 1
        exact ha t 1)
      0 0 (by norm_num) (le_refl 0) (le_refl 0)⟩

/-- **C7.**  For every call of the precompute `forward` or `inverse`
wrapper with `reality = True` and `spin ≠ 0` (and a recognised method), the
call does not raise: it emits the diagnostic warning, switches internally to
the complex (`reality = False`) path, and returns the same result as the
corresponding `reality = False` call (which emits no warning). -/
theorem C7_reality_downgrade {K : Type} [Field K] [StarRing K]
    (inumpy ijax itorch : FlmArr K → (ℕ → ℕ → ℕ → K) → ℕ → String → Bool → ℤ →
      Option ℕ → Arr2 K)
    (fnumpy fjax ftorch : Arr2 K → (ℕ → ℕ → ℕ → K) → ℕ → String → Bool → ℤ →
      Option ℕ → FlmArr K)
    (flm : FlmArr K) (f : Arr2 K) (kernel : ℕ → ℕ → ℕ → K) (L : ℕ) (spin : ℤ)
    (sampling : String) (method : String) (nside : Option ℕ)
    (hspin : spin ≠ 0)
    (hmethod : method = "numpy" ∨ method = "jax" ∨ method = "torch") :
    (∃ r, precompute_spherical.inverse inumpy ijax itorch flm L spin kernel sampling
          true method nside = .ok ([precompute_spherical.realityWarn], r)
        ∧ precompute_spherical.inverse inumpy ijax itorch flm L spin kernel sampling
          false method nside = .ok ([], r))
    ∧ (∃ r, precompute_spherical.forward fnumpy fjax ftorch f L spin kernel sampling
          true method nside = .ok ([precompute_spherical.realityWarn], r)
        ∧ precompute_spherical.forward fnumpy fjax ftorch f L spin kernel sampling
          false method nside = .ok ([], r)) := by
  constructor
  · unfold precompute_spherical.inverse
    rcases hmethod with h | h | h <;> subst h
    · exact ⟨inumpy flm kernel L sampling false spin nside, by simp [hspin], by simp⟩
    · exact ⟨ijax flm kernel L sampling false spin nside, by simp [hspin], by simp⟩
    · exact ⟨itorch flm kernel L sampling false spin nside, by simp [hspin], by simp⟩
  · unfold precompute_spherical.forward
    rcases hmethod with h | h | h <;> subst h
    · exact ⟨fnumpy f kernel L sampling false spin nside, by simp [hspin], by simp⟩
    · exact ⟨fjax f kernel L sampling false spin nside, by simp [hspin], by simp⟩
    · exact ⟨ftorch f kernel L sampling false spin nside, by simp [hspin], by simp⟩

/-- Witness for C7: concrete downgrade at `spin = 1`, method `"numpy"`. -/
theorem C7_witness :
    ((1 : ℤ) ≠ 0) ∧
      ∃ r, precompute_spherical.inverse (K := ℚ) (fun _ _ _ _ _ _ _ => ⟨1, 1, fun _ _ => 0⟩)
          (fun _ _ _ _ _ _ _ => ⟨1, 1, fun _ _ => 0⟩) (fun _ _ _ _ _ _ _ => ⟨1, 1, fun _ _ => 0⟩)
          ⟨1, 1, fun _ _ => 0⟩ 1 1 (fun _ _ _ => 0) "mw" true "numpy" none
          = .ok ([precompute_spherical.realityWarn], r)
        ∧ precompute_spherical.inverse (K := ℚ) (fun _ _ _ _ _ _ _ => ⟨1, 1, fun _ _ => 0⟩)
          (fun _ _ _ _ _ _ _ => ⟨1, 1, fun _ _ => 0⟩) (fun _ _ _ _ _ _ _ => ⟨1, 1, fun _ _ => 0⟩)
          ⟨1, 1, fun _ _ => 0⟩ 1 1 (fun _ _ _ => 0) "mw" false "numpy" none
          = .ok ([], r) :=
  ⟨by norm_num,
    (C7_reality_downgrade (fun _ _ _ _ _ _ _ => ⟨1, 1, fun _ _ => 0⟩)
      (fun _ _ _ _ _ _ _ => ⟨1, 1, fun _ _ => 0⟩) (fun _ _ _ _ _ _ _ => ⟨1, 1, fun _ _ => 0⟩)
      (fun _ _ _ _ _ _ _ => ⟨1, 1, fun _ _ => 0⟩) (fun _ _ _ _ _ _ _ => ⟨1, 1, fun _ _ => 0⟩)
      (fun _ _ _ _ _ _ _ => ⟨1, 1, fun _ _ => 0⟩) ⟨1, 1, fun _ _ => 0⟩ ⟨1, 1, fun _ _ => 0⟩
      (fun _ _ _ => 0) 1 1 "mw" "numpy" none (by norm_num) (Or.inl rfl)).1⟩

/-! ## Claims C2, C6 and C9 -/

/-- Trivial rational numeric ops, used to instantiate concrete statements. -/
def opsQ : NumOps ℚ := ⟨id, id, id, id, id, id, 0⟩

/-- A concrete collaborator record over `ℚ` for closed statements.  Its
`upsample_by_two_mwss` returns a 2-row array: the spec's Resampling Adapter
maps a signal onto the *doubled* grid (§2), so a conforming resampler never
returns its input unchanged; the remaining fields are trivial stubs. -/
def extQ : transform.Ext ℚ where
  thetas := fun _ _ _ => []
  f_shape := fun _ _ _ => (1, 1)
  ftm_shape := fun _ _ _ => (1, 1)
  quad_weights_transform := fun _ _ _ _ => fun _ => 0
  compute_slice := fun _ _ _ _ => fun _ => 0
  ring_phase_shift_hp := fun _ _ _ _ => fun _ => 0
  fft := id
  fftshift := id
  ifft := id
  ifftshift := id
  healpix_fft := fun a _ _ => a
  healpix_ifft := fun a _ _ => a
  mw_to_mwss := fun a _ _ => a
  upsample_by_two_mwss := fun _ _ _ => ⟨2, 1, fun _ _ => 0⟩

/-- **C2, counterexample.**  For the equiangular-oversampled scheme
(`"mwss"`) the forward transform *does* resample: the signal handed to the
per-ring contraction is `upsample_by_two_mwss(f, L, spin)`, not `f`.  With a
conforming doubled-grid resampler and the one-ring input, the routed signal
has a different number of rings than the input, so it is not the input. -/
theorem C2_counterexample :
    ((transform.forwardPreprocess extQ ⟨1, 1, fun _ _ => 0⟩ 1 0 "mwss" none).2.1).rows ≠
      (⟨1, 1, fun _ _ => (0 : ℚ)⟩ : Arr2 ℚ).rows := by
  decide

/-- **C2 (amended).**  In the forward transform the resampling/upsampling
step onto the doubled grid is applied for *both* equiangular schemes —
`"mw"` is first converted to the `"mwss"` grid and then upsampled by two,
and `"mwss"` is upsampled by two as well — and in the forward direction
only; for every other scheme (Driscoll–Healy, Gauss–Legendre, HEALPix) the
input signal is passed to the per-ring contraction without resampling, and
the inverse path hands the coefficient array to the contraction unchanged. -/
theorem C2_forward_resampling_routing {K : Type} [Field K] (ops : NumOps K)
    (ext : transform.Ext K) (f : Arr2 K) (L : ℕ) (spin : ℤ)
    (sampling : String) (nside : Option ℕ) :
    (pyLower sampling = "mw" →
      transform.forwardPreprocess ext f L spin sampling nside
        = ("mwss", ext.upsample_by_two_mwss (ext.mw_to_mwss f L spin) L spin,
            ext.thetas (2 * L) "mwss" none))
    ∧ (pyLower sampling = "mwss" →
      transform.forwardPreprocess ext f L spin sampling nside
        = ("mwss", ext.upsample_by_two_mwss f L spin, ext.thetas (2 * L) "mwss" none))
    ∧ (pyLower sampling ≠ "mw" → pyLower sampling ≠ "mwss" →
      transform.forwardPreprocess ext f L spin sampling nside
        = (sampling, f, ext.thetas L sampling nside))
    ∧ (∀ (flm : FlmArr K) (L0 : ℤ),
        (flm.rows, flm.cols) = transform.flm_shape L →
        0 ≤ |spin| ∧ |spin| < (L : ℤ) → L0 < (L : ℤ) →
      transform.inverse ops ext flm L spin sampling nside L0
        = .ok (transform._compute_inverse_sov_fft_vectorized ops ext flm L spin sampling
            (ext.thetas L sampling nside) nside L0)) := by
  refine ⟨?_, ?_, ?_, ?_⟩
  · intro h
    unfold transform.forwardPreprocess
    rw [h]
    simp
  · intro h
    unfold transform.forwardPreprocess
    rw [h]
    simp
  · intro h1 h2
    unfold transform.forwardPreprocess
    rw [if_neg h1, if_neg (by simp [h1, h2])]
  · intro flm L0 hshape hspin hL0
    unfold transform.inverse
    rw [if_neg (not_not_intro hshape), if_neg (not_not_intro hspin),
      if_neg (not_not_intro hL0)]

/-- Witness for C2: the amended routing at a concrete `"mwss"` call. -/
theorem C2_witness :
    (pyLower "mwss" = "mwss") ∧
      transform.forwardPreprocess extQ ⟨1, 1, fun _ _ => 0⟩ 1 0 "mwss" none
        = ("mwss", extQ.upsample_by_two_mwss ⟨1, 1, fun _ _ => 0⟩ 1 0,
            extQ.thetas (2 * 1) "mwss" none) :=
  ⟨by decide,
    (C2_forward_resampling_routing opsQ extQ ⟨1, 1, fun _ _ => 0⟩ 1 0 "mwss" none).2.1
      (by decide)⟩

/-- **C6.**  Both public transforms fail with a validation error — raised by
the assertion block that precedes any transform computation — whenever
`|spin| ≥ L`, or `L0 ≥ L`, or the input array's shape differs from the
expected shape for `(L, scheme, resolution)`; with valid parameters the
validations pass and the call returns a result. -/
theorem C6_fail_fast_validation {K : Type} [Field K] (ops : NumOps K)
    (ext : transform.Ext K) (flm : FlmArr K) (f : Arr2 K)
    (L : ℕ) (spin : ℤ) (sampling : String) (nside : Option ℕ) (L0 : ℤ) :
    ((L : ℤ) ≤ |spin| →
      (∃ e, transform.inverse ops ext flm L spin sampling nside L0 = .error e)
        ∧ (∃ e, transform.forward ops ext f L spin sampling nside L0 = .error e))
    ∧ ((L : ℤ) ≤ L0 →
      (∃ e, transform.inverse ops ext flm L spin sampling nside L0 = .error e)
        ∧ (∃ e, transform.forward ops ext f L spin sampling nside L0 = .error e))
    ∧ ((flm.rows, flm.cols) ≠ transform.flm_shape L →
      ∃ e, transform.inverse ops ext flm L spin sampling nside L0 = .error e)
    ∧ ((f.rows, f.cols) ≠ ext.f_shape L sampling nside →
      ∃ e, transform.forward ops ext f L spin sampling nside L0 = .error e)
    ∧ ((flm.rows, flm.cols) = transform.flm_shape L → |spin| < (L : ℤ) → L0 < (L : ℤ) →
      ∃ out, transform.inverse ops ext flm L spin sampling nside L0 = .ok out)
    ∧ ((f.rows, f.cols) = ext.f_shape L sampling nside → |spin| < (L : ℤ) → L0 < (L : ℤ) →
      ∃ out, transform.forward ops ext f L spin sampling nside L0 = .ok out) := by
  refine ⟨?_, ?_, ?_, ?_, ?_, ?_⟩
  · intro h
    have hspin : ¬ (0 ≤ |spin| ∧ |spin| < (L : ℤ)) := fun hc => absurd hc.2 (not_lt.mpr h)
    constructor
    · unfold transform.inverse
      by_cases h1 : ¬ ((flm.rows, flm.cols) = transform.flm_shape L)
      · rw [if_pos h1]
        exact ⟨_, rfl⟩
      · rw [if_neg h1, if_pos hspin]
        exact ⟨_, rfl⟩
    · unfold transform.forward
      by_cases h1 : ¬ ((f.rows, f.cols) = ext.f_shape L sampling nside)
      · rw [if_pos h1]
        exact ⟨_, rfl⟩
      · rw [if_neg h1, if_pos hspin]
        exact ⟨_, rfl⟩
  · intro h
    have hL0 : ¬ (L0 < (L : ℤ)) := not_lt.mpr h
    constructor
    · unfold transform.inverse
      by_cases h1 : ¬ ((flm.rows, flm.cols) = transform.flm_shape L)
      · rw [if_pos h1]
        exact ⟨_, rfl⟩
      · rw [if_neg h1]
        by_cases h2 : ¬ (0 ≤ |spin| ∧ |spin| < (L : ℤ))
        · rw [if_pos h2]
          exact ⟨_, rfl⟩
        · rw [if_neg h2, if_pos hL0]
          exact ⟨_, rfl⟩
    · unfold transform.forward
      by_cases h1 : ¬ ((f.rows, f.cols) = ext.f_shape L sampling nside)
      · rw [if_pos h1]
        exact ⟨_, rfl⟩
      · rw [if_neg h1]
        by_cases h2 : ¬ (0 ≤ |spin| ∧ |spin| < (L : ℤ))
        · rw [if_pos h2]
          exact ⟨_, rfl⟩
        · rw [if_neg h2, if_pos hL0]
          exact ⟨_, rfl⟩
  · intro h
    unfold transform.inverse
    rw [if_pos h]
    exact ⟨_, rfl⟩
  · intro h
    unfold transform.forward
    rw [if_pos h]
    exact ⟨_, rfl⟩
  · intro h1 h2 h3
    unfold transform.inverse
    rw [if_neg (not_not_intro h1), if_neg (not_not_intro ⟨abs_nonneg spin, h2⟩),
      if_neg (not_not_intro h3)]
    exact ⟨_, rfl⟩
  · intro h1 h2 h3
    unfold transform.forward
    rw [if_neg (not_not_intro h1), if_neg (not_not_intro ⟨abs_nonneg spin, h2⟩),
      if_neg (not_not_intro h3)]
    exact ⟨_, rfl⟩

/-- Witness for C6: at `L = 1`, `spin = 0`, `L0 = 0` and a correctly shaped
coefficient array, the inverse validations pass and the call succeeds. -/
theorem C6_witness :
    ((⟨1, 1, fun _ _ => (0 : ℚ)⟩ : FlmArr ℚ).rows,
        (⟨1, 1, fun _ _ => (0 : ℚ)⟩ : FlmArr ℚ).cols) = transform.flm_shape 1 ∧
      |(0 : ℤ)| < (1 : ℤ) ∧ (0 : ℤ) < (1 : ℤ) ∧
      ∃ out, transform.inverse opsQ extQ ⟨1, 1, fun _ _ => 0⟩ 1 0 "mw" none 0 = .ok out :=
  ⟨by decide, by decide, by decide,
    (C6_fail_fast_validation opsQ extQ ⟨1, 1, fun _ _ => 0⟩ ⟨1, 1, fun _ _ => 0⟩
        1 0 "mw" none 0).2.2.2.2.1 (by decide) (by decide) (by decide)⟩

/-- **C9.**  For every valid input the forward transform's output is exactly
an `[L, 2L-1]` array in which every entry with `|m| > el` is identically
zero, and the inverse transform's output shape equals the scheme's expected
pixel shape for `(L, resolution)`.  The hypotheses record the contracts of
the collaborators absent from src/: the Turok Wigner-d slice vanishes for
`|m| > el` (§3), the external FFT routines preserve array shape, the HEALPix
inverse-FFT adapter produces the scheme's pixel shape, and the `samples`
shape rules give `ftm` the pixel grid's shape for the uniform schemes. -/
theorem C9_output_shape_and_zero_padding {K : Type} [Field K] (ops : NumOps K)
    (ext : transform.Ext K) (flm : FlmArr K) (f : Arr2 K)
    (L : ℕ) (spin : ℤ) (sampling : String) (nside : Option ℕ) (L0 : ℤ)
    (hslice : ∀ (theta : K) (el : ℕ) (m : ℤ), (el : ℤ) < |m| →
      ext.compute_slice theta el L (-spin) m = 0)
    (hishift : ∀ a, (ext.ifftshift a).rows = a.rows ∧ (ext.ifftshift a).cols = a.cols)
    (hifft : ∀ a, (ext.ifft a).rows = a.rows ∧ (ext.ifft a).cols = a.cols)
    (hhp : pyLower sampling = "healpix" →
      ∀ a, ((ext.healpix_ifft a L nside).rows, (ext.healpix_ifft a L nside).cols)
        = ext.f_shape L sampling nside)
    (hftm : pyLower sampling ≠ "healpix" →
      ext.ftm_shape L sampling nside = ext.f_shape L sampling nside) :
    (∀ out, transform.forward ops ext f L spin sampling nside L0 = .ok out →
      out.rows = L ∧ out.cols = 2 * L - 1 ∧
        ∀ (el : ℕ) (m : ℤ), (el : ℤ) < |m| → out.ent el m = 0)
    ∧ (∀ out, transform.inverse ops ext flm L spin sampling nside L0 = .ok out →
      (out.rows, out.cols) = ext.f_shape L sampling nside) := by
  constructor
  · intro out h
    unfold transform.forward at h
    split_ifs at h with h1 h2 h3 <;> try exact Except.noConfusion h
    injection h with h
    exact transform._compute_forward_sov_fft_vectorized_shape_zero ops ext _ L spin _ _ _
      nside L0 hslice out h.symm
  · intro out h
    unfold transform.inverse at h
    split_ifs at h with h1 h2 h3 <;> try exact Except.noConfusion h
    injection h with h
    exact transform._compute_inverse_sov_fft_vectorized_shape ops ext flm L spin sampling _
      nside L0 hishift hifft hhp hftm out h.symm

/-- Witness for C9: concrete rational instantiation with trivial
collaborators at `L = 1`, `spin = 0`, scheme `"mw"`. -/
theorem C9_witness :
    (∀ (theta : ℚ) (el : ℕ) (m : ℤ), (el : ℤ) < |m| →
      extQ.compute_slice theta el 1 (-(0 : ℤ)) m = 0) ∧
      ∀ out, transform.forward opsQ extQ ⟨1, 1, fun _ _ => 0⟩ 1 0 "mw" none 0 = .ok out →
        out.rows = 1 ∧ out.cols = 2 * 1 - 1 ∧
          ∀ (el : ℕ) (m : ℤ), (el : ℤ) < |m| → out.ent el m = 0 :=
  ⟨fun _ _ _ _ => rfl,
    (C9_output_shape_and_zero_padding opsQ extQ ⟨1, 1, fun _ _ => 0⟩ ⟨1, 1, fun _ _ => 0⟩
        1 0 "mw" none 0 (fun _ _ _ _ => rfl) (fun _ => ⟨rfl, rfl⟩) (fun _ => ⟨rfl, rfl⟩)
        (fun h => absurd h (by decide)) (fun _ => rfl)).1⟩

/-- Witness for C8: at `K = ℚ`, trivial ops, the `2049 × 2049` zero plane,
`L = 1025 > 1024`, `el = 0`, `compute_eighth` succeeds with the stability
warning. -/
theorem C8_witness :
    (1025 : ℤ) > 1024 ∧
      trapani.compute_eighth (⟨id, id, id, id, id, id, 0⟩ : NumOps ℚ)
          ⟨2049, 2049, fun _ _ => 0⟩ 1025 0
        = .ok (["Trapani recursion may not be stable for L > 1024"],
            trapani.compute_eighthCore (⟨id, id, id, id, id, id, 0⟩ : NumOps ℚ)
              ⟨2049, 2049, fun _ _ => 0⟩ 1025 0) :=
  ⟨by norm_num,
    ((C8_trapani_warning_and_precondition_checks (⟨id, id, id, id, id, id, 0⟩ : NumOps ℚ)
        ⟨2049, 2049, fun _ _ => 0⟩ 1025 0).1 (by norm_num) (by norm_num) (by norm_num)
      (by norm_num) (by norm_num)).1⟩

/-! ## Claim C5 -/

/-- Shape and entries of a forward `wigner_kernel` for a non-HEALPix
sampling scheme, in stored (nonnegative) first-axis coordinates. -/
lemma wigner_kernel_fwd_char {K : Type} [Field K] (ops : NumOps K)
    (ext : construct.ExtC K) (L N : ℕ) (reality : Bool) (sampling : String)
    (nside : Option ℕ) (hs : pyLower sampling ≠ "healpix") :
    ((construct.wigner_kernel ops ext L N reality sampling nside true).d1 = 2 * N - 1 ∧
      (construct.wigner_kernel ops ext L N reality sampling nside true).d2 =
        (if pyLower sampling = "mw" ∨ pyLower sampling = "mwss" then
          ext.thetas (2 * L) "mwss" none else ext.thetas L sampling nside).length ∧
      (construct.wigner_kernel ops ext L N reality sampling nside true).d3 = L ∧
      (construct.wigner_kernel ops ext L N reality sampling nside true).d4 = 2 * L - 1) ∧
    ∀ a t el : ℕ, ∀ m : ℤ, a < 2 * N - 1 →
      t < (if pyLower sampling = "mw" ∨ pyLower sampling = "mwss" then
        ext.thetas (2 * L) "mwss" none else ext.thetas L sampling nside).length →
      (-(N : ℤ) + 1 + a).natAbs ≤ el → el < L →
      (construct.wigner_kernel ops ext L N reality sampling nside true).ent a t el m =
        ext.compute_slice
            ((if pyLower sampling = "mw" ∨ pyLower sampling = "mwss" then
              ext.thetas (2 * L) "mwss" none else ext.thetas L sampling nside).getD t 0)
            el L (-(N : ℤ) + 1 + a) reality m
          * ext.quad_weights_transform L
              (if pyLower sampling = "mw" ∨ pyLower sampling = "mwss" then "mwss"
                else sampling) 0 nside t
          * (2 * ops.pi / (2 * (N : K) - 1)) := by
  by_cases hc : pyLower sampling = "mw" ∨ pyLower sampling = "mwss"
  · have hC := eq_true hc
    have hmw : (pyLower "mwss" = "healpix") = False := eq_false (by decide)
    simp only [construct.wigner_kernel, hC, eq_self_iff_true, true_and, if_true, hmw,
      if_false]
    refine ⟨⟨?_, ?_, ?_, ?_⟩, ?_⟩
    · exact (construct.wignerNLoop_dims ext (ext.thetas (2 * L) "mwss" none) L N reality
        (2 * N - 1) ⟨2 * N - 1, (ext.thetas (2 * L) "mwss" none).length, L, 2 * L - 1,
          fun _ _ _ _ => 0⟩).1
    · exact (construct.wignerNLoop_dims ext (ext.thetas (2 * L) "mwss" none) L N reality
        (2 * N - 1) ⟨2 * N - 1, (ext.thetas (2 * L) "mwss" none).length, L, 2 * L - 1,
          fun _ _ _ _ => 0⟩).2.1
    · exact (construct.wignerNLoop_dims ext (ext.thetas (2 * L) "mwss" none) L N reality
        (2 * N - 1) ⟨2 * N - 1, (ext.thetas (2 * L) "mwss" none).length, L, 2 * L - 1,
          fun _ _ _ _ => 0⟩).2.2.1
    · exact (construct.wignerNLoop_dims ext (ext.thetas (2 * L) "mwss" none) L N reality
        (2 * N - 1) ⟨2 * N - 1, (ext.thetas (2 * L) "mwss" none).length, L, 2 * L - 1,
          fun _ _ _ _ => 0⟩).2.2.2
    · intro a t el m ha ht h1 h2
      show (construct.wignerNLoop ext (ext.thetas (2 * L) "mwss" none) L N reality
          (2 * N - 1) ⟨2 * N - 1, (ext.thetas (2 * L) "mwss" none).length, L, 2 * L - 1,
            fun _ _ _ _ => 0⟩).ent a t el m
          * ext.quad_weights_transform L "mwss" 0 nside t
          * (2 * ops.pi / (2 * (N : K) - 1)) = _
      rw [construct.wignerNLoop_ent, if_pos ⟨ha, ht, h1, h2⟩]
  · have hC := eq_false hc
    have hhp := eq_false hs
    simp only [construct.wigner_kernel, hC, eq_self_iff_true, true_and, if_false, hhp,
      if_true]
    refine ⟨⟨?_, ?_, ?_, ?_⟩, ?_⟩
    · exact (construct.wignerNLoop_dims ext (ext.thetas L sampling nside) L N reality
        (2 * N - 1) ⟨2 * N - 1, (ext.thetas L sampling nside).length, L, 2 * L - 1,
          fun _ _ _ _ => 0⟩).1
    · exact (construct.wignerNLoop_dims ext (ext.thetas L sampling nside) L N reality
        (2 * N - 1) ⟨2 * N - 1, (ext.thetas L sampling nside).length, L, 2 * L - 1,
          fun _ _ _ _ => 0⟩).2.1
    · exact (construct.wignerNLoop_dims ext (ext.thetas L sampling nside) L N reality
        (2 * N - 1) ⟨2 * N - 1, (ext.thetas L sampling nside).length, L, 2 * L - 1,
          fun _ _ _ _ => 0⟩).2.2.1
    · exact (construct.wignerNLoop_dims ext (ext.thetas L sampling nside) L N reality
        (2 * N - 1) ⟨2 * N - 1, (ext.thetas L sampling nside).length, L, 2 * L - 1,
          fun _ _ _ _ => 0⟩).2.2.2
    · intro a t el m ha ht h1 h2
      show (construct.wignerNLoop ext (ext.thetas L sampling nside) L N reality
          (2 * N - 1) ⟨2 * N - 1, (ext.thetas L sampling nside).length, L, 2 * L - 1,
            fun _ _ _ _ => 0⟩).ent a t el m
          * ext.quad_weights_transform L sampling 0 nside t
          * (2 * ops.pi / (2 * (N : K) - 1)) = _
      rw [construct.wignerNLoop_ent, if_pos ⟨ha, ht, h1, h2⟩]

/-- Shape and entries of an inverse `wigner_kernel` for a non-HEALPix
sampling scheme, in stored (nonnegative) first-axis coordinates. -/
lemma wigner_kernel_inv_char {K : Type} [Field K] (ops : NumOps K)
    (ext : construct.ExtC K) (L N : ℕ) (reality : Bool) (sampling : String)
    (nside : Option ℕ) (hs : pyLower sampling ≠ "healpix") :
    ((construct.wigner_kernel ops ext L N reality sampling nside false).d1 = 2 * N - 1 ∧
      (construct.wigner_kernel ops ext L N reality sampling nside false).d2 =
        (ext.thetas L sampling nside).length ∧
      (construct.wigner_kernel ops ext L N reality sampling nside false).d3 = L ∧
      (construct.wigner_kernel ops ext L N reality sampling nside false).d4 = 2 * L - 1) ∧
    ∀ a t el : ℕ, ∀ m : ℤ, a < 2 * N - 1 →
      t < (ext.thetas L sampling nside).length →
      (-(N : ℤ) + 1 + a).natAbs ≤ el → el < L →
      (construct.wigner_kernel ops ext L N reality sampling nside false).ent a t el m =
        ext.compute_slice ((ext.thetas L sampling nside).getD t 0) el L
            (-(N : ℤ) + 1 + a) reality m
          * ((2 * (el : K) + 1) / (8 * ops.pi ^ 2)) := by
  have hf : ((false = true)) = False := eq_false Bool.false_ne_true
  have hhp := eq_false hs
  simp only [construct.wigner_kernel, hf, false_and, if_false, hhp]
  refine ⟨⟨?_, ?_, ?_, ?_⟩, ?_⟩
  · exact (construct.wignerNLoop_dims ext (ext.thetas L sampling nside) L N reality
      (2 * N - 1) ⟨2 * N - 1, (ext.thetas L sampling nside).length, L, 2 * L - 1,
        fun _ _ _ _ => 0⟩).1
  · exact (construct.wignerNLoop_dims ext (ext.thetas L sampling nside) L N reality
      (2 * N - 1) ⟨2 * N - 1, (ext.thetas L sampling nside).length, L, 2 * L - 1,
        fun _ _ _ _ => 0⟩).2.1
  · exact (construct.wignerNLoop_dims ext (ext.thetas L sampling nside) L N reality
      (2 * N - 1) ⟨2 * N - 1, (ext.thetas L sampling nside).length, L, 2 * L - 1,
        fun _ _ _ _ => 0⟩).2.2.1
  · exact (construct.wignerNLoop_dims ext (ext.thetas L sampling nside) L N reality
      (2 * N - 1) ⟨2 * N - 1, (ext.thetas L sampling nside).length, L, 2 * L - 1,
        fun _ _ _ _ => 0⟩).2.2.2
  · intro a t el m ha ht h1 h2
    show (construct.wignerNLoop ext (ext.thetas L sampling nside) L N reality
        (2 * N - 1) ⟨2 * N - 1, (ext.thetas L sampling nside).length, L, 2 * L - 1,
          fun _ _ _ _ => 0⟩).ent a t el m
        * ((2 * (el : K) + 1) / (8 * ops.pi ^ 2)) = _
    rw [construct.wignerNLoop_ent, if_pos ⟨ha, ht, h1, h2⟩]

/-- C5: the Wigner kernel builder loops over every azimuthal order
`n ∈ [-(N-1), N-1]`, stacking the Turok slice plane for order `n` at first
index `N-1+n`, scales by exactly `2π/(2N-1)` (after quadrature weighting)
on the forward side and by `(2l+1)/(8π²)` per degree `l` on the inverse
side, and returns shape `[2N-1, n_rings, L, 2L-1]` (stated for non-HEALPix
schemes, where no ring phase factor applies). -/
theorem C5_wigner_kernel_stacks_orders_and_scales {K : Type} [Field K]
    (ops : NumOps K) (ext : construct.ExtC K) (L N : ℕ) (reality : Bool)
    (sampling : String) (nside : Option ℕ) (hs : pyLower sampling ≠ "healpix") :
    ((construct.wigner_kernel ops ext L N reality sampling nside true).d1 = 2 * N - 1 ∧
      (construct.wigner_kernel ops ext L N reality sampling nside true).d2 =
        (if pyLower sampling = "mw" ∨ pyLower sampling = "mwss" then
          ext.thetas (2 * L) "mwss" none else ext.thetas L sampling nside).length ∧
      (construct.wigner_kernel ops ext L N reality sampling nside true).d3 = L ∧
      (construct.wigner_kernel ops ext L N reality sampling nside true).d4 = 2 * L - 1) ∧
    ((construct.wigner_kernel ops ext L N reality sampling nside false).d1 = 2 * N - 1 ∧
      (construct.wigner_kernel ops ext L N reality sampling nside false).d2 =
        (ext.thetas L sampling nside).length ∧
      (construct.wigner_kernel ops ext L N reality sampling nside false).d3 = L ∧
      (construct.wigner_kernel ops ext L N reality sampling nside false).d4 = 2 * L - 1) ∧
    (∀ n : ℤ, -(N : ℤ) + 1 ≤ n → n ≤ (N : ℤ) - 1 → ∀ t el : ℕ, ∀ m : ℤ,
      t < (if pyLower sampling = "mw" ∨ pyLower sampling = "mwss" then
        ext.thetas (2 * L) "mwss" none else ext.thetas L sampling nside).length →
      n.natAbs ≤ el → el < L →
      (construct.wigner_kernel ops ext L N reality sampling nside true).ent
          ((N : ℤ) - 1 + n).toNat t el m =
        ext.compute_slice
            ((if pyLower sampling = "mw" ∨ pyLower sampling = "mwss" then
              ext.thetas (2 * L) "mwss" none else ext.thetas L sampling nside).getD t 0)
            el L n reality m
          * ext.quad_weights_transform L
              (if pyLower sampling = "mw" ∨ pyLower sampling = "mwss" then "mwss"
                else sampling) 0 nside t
          * (2 * ops.pi / (2 * (N : K) - 1))) ∧
    (∀ n : ℤ, -(N : ℤ) + 1 ≤ n → n ≤ (N : ℤ) - 1 → ∀ t el : ℕ, ∀ m : ℤ,
      t < (ext.thetas L sampling nside).length → n.natAbs ≤ el → el < L →
      (construct.wigner_kernel ops ext L N reality sampling nside false).ent
          ((N : ℤ) - 1 + n).toNat t el m =
        ext.compute_slice ((ext.thetas L sampling nside).getD t 0) el L n reality m
          * ((2 * (el : K) + 1) / (8 * ops.pi ^ 2))) := by
  obtain ⟨hdF, hentF⟩ := wigner_kernel_fwd_char ops ext L N reality sampling nside hs
  obtain ⟨hdI, hentI⟩ := wigner_kernel_inv_char ops ext L N reality sampling nside hs
  refine ⟨hdF, hdI, ?_, ?_⟩
  · intro n hn1 hn2 t el m ht h1 h2
    have ha : ((((N : ℤ) - 1 + n).toNat : ℤ)) = (N : ℤ) - 1 + n :=
      Int.toNat_of_nonneg (by omega)
    have heq : -(N : ℤ) + 1 + ((((N : ℤ) - 1 + n).toNat : ℕ) : ℤ) = n := by omega
    have h1' : (-(N : ℤ) + 1 + ((((N : ℤ) - 1 + n).toNat : ℕ) : ℤ)).natAbs ≤ el := by
      rw [heq]; exact h1
    have hlt : ((N : ℤ) - 1 + n).toNat < 2 * N - 1 := by omega
    have hmain := hentF ((N : ℤ) - 1 + n).toNat t el m hlt ht h1' h2
    rw [heq] at hmain
    exact hmain
  · intro n hn1 hn2 t el m ht h1 h2
    have ha : ((((N : ℤ) - 1 + n).toNat : ℤ)) = (N : ℤ) - 1 + n :=
      Int.toNat_of_nonneg (by omega)
    have heq : -(N : ℤ) + 1 + ((((N : ℤ) - 1 + n).toNat : ℕ) : ℤ) = n := by omega
    have h1' : (-(N : ℤ) + 1 + ((((N : ℤ) - 1 + n).toNat : ℕ) : ℤ)).natAbs ≤ el := by
      rw [heq]; exact h1
    have hlt : ((N : ℤ) - 1 + n).toNat < 2 * N - 1 := by omega
    have hmain := hentI ((N : ℤ) - 1 + n).toNat t el m hlt ht h1' h2
    rw [heq] at hmain
    exact hmain

/-- Trivial rational collaborators for `construct.py`: a ring of zeros per
band-limit, unit weights, unit slices and unit phases. -/
def extCQ : construct.ExtC ℚ :=
  ⟨fun L _ _ => List.replicate L 0, fun _ _ _ _ _ => 1, fun _ _ _ _ _ _ => 1,
   fun _ _ _ _ _ => 1⟩

/-- Witness for C5: the rational instantiation at `L = N = 1`, scheme
`"dh"`, satisfies the non-HEALPix hypothesis and the inverse kernel has
degree axis of length `L = 1`. -/
theorem C5_witness :
    pyLower "dh" ≠ "healpix" ∧
      (construct.wigner_kernel opsQ extCQ 1 1 false "dh" none false).d3 = 1 :=
  ⟨by decide,
    (C5_wigner_kernel_stacks_orders_and_scales opsQ extCQ 1 1 false "dh" none
        (by decide)).2.1.2.2.1⟩

/-! ## Claim C10 -/

/-- C10: with `precomps=None`, `compute_all_slices` falls back to
`generate_precomputes(beta, L, mm)`, binding the polar-angle array to the
integer band-limit parameter and the band-limit to the spin parameter, so
the fallback raises instead of producing a coefficient list, and the
function returns normally exactly when the caller supplies a precompute
bundle. -/
theorem C10_fallback_precompute_call_swaps_arguments {K : Type}
    [LinearOrderedField K] (ops : NumOps K) (ext : price_mcewen.ExtPM K)
    (beta : List K) (L : ℕ) (spin : ℤ) :
    price_mcewen.compute_all_slices ops ext beta L spin none =
      Except.error
        "TypeError: thetas requires an integer band-limit and a string sampling scheme" ∧
    ∀ p, price_mcewen.compute_all_slices ops ext beta L spin (some p) =
      Except.ok (price_mcewen.compute_all_slicesCore ops p L) :=
  ⟨rfl, fun _ => rfl⟩

/-! ## Claim C1 -/

/-- Real-number operations: the numpy floating-point functions read as their
exact real counterparts. -/
noncomputable def opsR : NumOps ℝ :=
  ⟨Real.sqrt, Real.exp, Real.log, Real.sin, Real.cos, Real.tan, Real.pi⟩

/-- Trivial real collaborators for `jax_transforms/wigner.py` with a scalar
signal type. -/
noncomputable def extWR : jax_transforms.ExtW ℝ ℝ Unit :=
  ⟨fun _ _ _ _ => 0, fun _ _ _ _ _ _ _ _ => 0, fun f _ => f, fun f => f, fun f => f⟩

/-- The all-ones `[1, 1, 1]` Wigner coefficient array. -/
noncomputable def flmnOneR : jax_transforms.FlmnArr ℝ := ⟨1, 1, 1, fun _ _ _ => 1⟩

/-- A rational precompute bundle with zero `lamb` and `lrenorm` and unit
`cs`. -/
def pmEx : price_mcewen.Precomps ℚ :=
  ⟨fun _ _ _ => 0, fun _ _ _ => 0, fun _ _ => 0, fun _ _ => 0, fun _ _ => 0,
   fun _ => 1, fun _ k => k⟩

/-- C1: the claimed purity fails — `inverse_numpy` overwrites the caller's
`flmn` with quadrature-scaled coefficients (at `L = N = 1` the unit entry
becomes `sqrt(1/(16π³)) ≠ 1`), and `compute_all_slices` writes through the
precompute bundle's `lamb` and `lrenorm` arrays (at `L = 3` with zero
`lamb`, `lrenorm` and unit `cs`, both end at `1 ≠ 0`). -/
theorem C1_inverse_numpy_and_compute_all_slices_mutate_inputs :
    (jax_transforms.inverse_numpy opsR extWR flmnOneR 1 1 none "mw" false
        (fun _ => ()) 0).2.ent 0 0 0 ≠ flmnOneR.ent 0 0 0 ∧
    (price_mcewen.compute_all_slicesCore opsQ pmEx 3).lamb 0 0 0 ≠ pmEx.lamb 0 0 0 ∧
    (price_mcewen.compute_all_slicesCore opsQ pmEx 3).lrenorm 0 0 0 ≠
      pmEx.lrenorm 0 0 0 := by
  refine ⟨?_, ?_, ?_⟩
  · intro h
    have h1 : (1 : ℝ) * Real.sqrt ((2 * ((0 : ℕ) : ℝ) + 1) / (16 * Real.pi ^ 3)) = 1 := h
    rw [one_mul, (by norm_num : (2 * ((0 : ℕ) : ℝ) + 1) = 1), Real.sqrt_eq_one] at h1
    have hpi := Real.pi_gt_three
    have h9 : (9 : ℝ) < Real.pi ^ 2 := by nlinarith
    have h27 : (27 : ℝ) < Real.pi ^ 3 := by nlinarith
    have hne : (16 * Real.pi ^ 3) ≠ 0 := by positivity
    rw [div_eq_one_iff_eq hne] at h1
    linarith
  · simp [price_mcewen.compute_all_slicesCore, price_mcewen.outerIter,
      price_mcewen.innerLoop, price_mcewen.innerStep, pmEx]
  · simp [price_mcewen.compute_all_slicesCore, price_mcewen.outerIter,
      price_mcewen.innerLoop, price_mcewen.innerStep, pmEx, opsQ]
